import Mathlib

/-!
# golodash string utilities: `strings.go`

A shallow embedding of `Words`, the case converters built on it, `Substring`
and `Ellipsis`, with the properties their specification states.

Strings.  `Words`, the case converters and `Substring` read their argument rune
by rune (`regexp`, `range`, `[]rune(s)`), so their argument is the sequence of
decoded runes, `List Char`; an invalid byte decodes to U+FFFD.  `Ellipsis`
measures and cuts bytes, so its argument is the byte sequence, `List Nat`.

Library code.  `regexp`, `strings`, `unicode` and `unicode/utf8` are modelled
after their documented behaviour.  The Unicode range tables beyond Latin-1 are
a parameter (`UnicodeTables`).
-/

namespace Golodash

/-! ## Runes and the `unicode` package -/

/-- Regular-expression class `[a-z]`. -/
def isLowerAZ (c : Char) : Bool := decide (97 ≤ c.toNat) && decide (c.toNat ≤ 122)

/-- Regular-expression class `[A-Z]`. -/
def isUpperAZ (c : Char) : Bool := decide (65 ≤ c.toNat) && decide (c.toNat ≤ 90)

/-- Regular-expression class `[0-9]`. -/
def isDigit09 (c : Char) : Bool := decide (48 ≤ c.toNat) && decide (c.toNat ≤ 57)

/-- Regular-expression class `[a-zA-Z]`. -/
def isAlphaAZ (c : Char) : Bool := isLowerAZ c || isUpperAZ c

/-- Regular-expression class `[A-Z0-9]`. -/
def isUpperOrDigit (c : Char) : Bool := isUpperAZ c || isDigit09 c

/-- Regular-expression class `[a-zA-Z0-9]`. -/
def isAlnumAZ09 (c : Char) : Bool := isLowerAZ c || isUpperAZ c || isDigit09 c

/-- Code point `unicode.MaxLatin1`. -/
def MaxLatin1 : Nat := 0xFF

/-- Code point `unicode.MaxASCII`. -/
def MaxASCII : Nat := 0x7F

/-- Code point `utf8.RuneError`, U+FFFD. -/
def RuneError : Nat := 0xFFFD

/-- Letters of Latin-1 (the `pLmask` entries of `unicode.properties`): `A-Z`,
`a-z`, U+00AA, U+00B5, U+00BA, U+00C0-U+00D6, U+00D8-U+00F6, U+00F8-U+00FF. -/
def latin1Letter (r : Nat) : Bool :=
  (decide (0x41 ≤ r) && decide (r ≤ 0x5A)) || (decide (0x61 ≤ r) && decide (r ≤ 0x7A)) ||
  r == 0xAA || r == 0xB5 || r == 0xBA ||
  (decide (0xC0 ≤ r) && decide (r ≤ 0xD6)) || (decide (0xD8 ≤ r) && decide (r ≤ 0xF6)) ||
  (decide (0xF8 ≤ r) && decide (r ≤ 0xFF))

/-- Upper case letters of Latin-1 (the `pLu` entries of `unicode.properties`):
`A-Z`, U+00C0-U+00D6, U+00D8-U+00DE. -/
def latin1Upper (r : Nat) : Bool :=
  (decide (0x41 ≤ r) && decide (r ≤ 0x5A)) ||
  (decide (0xC0 ≤ r) && decide (r ≤ 0xD6)) || (decide (0xD8 ≤ r) && decide (r ≤ 0xDE))

/-- Go `unicode.IsSpace` on a code point: the Latin-1 switch, and beyond
Latin-1 the `White_Space` range table. -/
def runeIsSpace (r : Nat) : Bool :=
  if r ≤ MaxLatin1 then
    (decide (0x09 ≤ r) && decide (r ≤ 0x0D)) || r == 0x20 || r == 0x85 || r == 0xA0
  else
    r == 0x1680 || (decide (0x2000 ≤ r) && decide (r ≤ 0x200A)) || r == 0x2028 ||
    r == 0x2029 || r == 0x202F || r == 0x205F || r == 0x3000

/-- The range tables and case mappings of Go's `unicode` package that the
library consults beyond Latin-1 (beyond ASCII for the case mappings).  The one
fact assumed of them: no `White_Space` code point is a letter or a decimal
digit. -/
structure UnicodeTables where
  /-- Range table `unicode.Letter` (category L). -/
  Letter : Char → Bool
  /-- Range table `unicode.Digit` (category Nd). -/
  Digit : Char → Bool
  /-- Range table `unicode.Upper` (category Lu). -/
  Upper : Char → Bool
  /-- Lower case mapping of `unicode.CaseRanges`. -/
  lowerCase : Char → Char
  /-- Upper case mapping of `unicode.CaseRanges`. -/
  upperCase : Char → Char
  /-- White space is neither a letter nor a digit. -/
  space_not_alnum : ∀ c : Char, runeIsSpace c.toNat = true → Letter c = false ∧ Digit c = false

/-- Go `unicode.IsLetter`. -/
def IsLetter (T : UnicodeTables) (r : Char) : Bool :=
  if r.toNat ≤ MaxLatin1 then latin1Letter r.toNat else T.Letter r

/-- Go `unicode.IsDigit`. -/
def IsDigit (T : UnicodeTables) (r : Char) : Bool :=
  if r.toNat ≤ MaxLatin1 then decide (48 ≤ r.toNat) && decide (r.toNat ≤ 57) else T.Digit r

/-- Go `unicode.IsUpper`. -/
def IsUpper (T : UnicodeTables) (r : Char) : Bool :=
  if r.toNat ≤ MaxLatin1 then latin1Upper r.toNat else T.Upper r

/-- Go `unicode.IsSpace` on a decoded rune. -/
def IsSpace (r : Char) : Bool := runeIsSpace r.toNat

/-- Go `unicode.ToLower`. -/
def ToLowerRune (T : UnicodeTables) (r : Char) : Char :=
  if r.toNat ≤ MaxASCII then (if isUpperAZ r then Char.ofNat (r.toNat + 32) else r)
  else T.lowerCase r

/-- Go `unicode.ToUpper`. -/
def ToUpperRune (T : UnicodeTables) (r : Char) : Char :=
  if r.toNat ≤ MaxASCII then (if isLowerAZ r then Char.ofNat (r.toNat - 32) else r)
  else T.upperCase r

/-- A table that agrees with Go's on the code points it lists and treats every
other code point beyond Latin-1 as a caseless non-letter: U+212A KELVIN SIGN is
an upper case letter whose lower case is `k` (`unicode.CaseRanges` entry
`0x212A, d[0, -8383, 0]`), U+0130 is an upper case letter whose lower case is
`i`, and U+1D400 MATHEMATICAL BOLD CAPITAL A is an upper case letter without
case mappings. -/
def sampleTables : UnicodeTables where
  Letter := fun c => c.toNat == 0x212A || c.toNat == 0x130 || c.toNat == 0x1D400
  Digit := fun _ => false
  Upper := fun c => c.toNat == 0x212A || c.toNat == 0x130 || c.toNat == 0x1D400
  lowerCase := fun c =>
    if c.toNat = 0x212A then 'k' else if c.toNat = 0x130 then 'i' else c
  upperCase := fun c => c
  space_not_alnum := by
    intro c h
    simp only [runeIsSpace, MaxLatin1] at h
    split at h <;> simp at h ⊢ <;> omega

/-! ## `regexp`: the two patterns and `ReplaceAllString` -/

/-- Submatches `$1`..`$9` of one match: entry `i - 1` is the text of group `i`,
empty when the group took no part in the match. -/
abbrev Groups := List (List Char)

/-- Text of group `i` in a replacement template. -/
def grp (g : Groups) (i : Nat) : List Char := g.getD (i - 1) []

/-- Pattern
`([a-z])([A-Z0-9])|([a-zA-Z])([0-9])|([0-9])([a-zA-Z])|([A-Z])([A-Z])([a-z])`
tried at the head of the input, alternatives in order (leftmost-first): the
submatches and the input after the match. -/
def splitWordReg : List Char → Option (Groups × List Char)
  | a :: b :: rest =>
    if isLowerAZ a && isUpperOrDigit b then some ([[a], [b], [], [], [], [], [], [], []], rest)
    else if isAlphaAZ a && isDigit09 b then some ([[], [], [a], [b], [], [], [], [], []], rest)
    else if isDigit09 a && isAlphaAZ b then some ([[], [], [], [], [a], [b], [], [], []], rest)
    else
      match rest with
      | c :: rest' =>
        if isUpperAZ a && isUpperAZ b && isLowerAZ c then
          some ([[], [], [], [], [], [], [a], [b], [c]], rest')
        else none
      | [] => none
  | _ => none

/-- Pattern `([0-9])([a-zA-Z])` tried at the head of the input. -/
def splitNumberLetterReg : List Char → Option (Groups × List Char)
  | a :: b :: rest =>
    if isDigit09 a && isAlphaAZ b then some ([[a], [b]], rest) else none
  | _ => none

/-- Replacement template `$1$3$5$7 $2$4$6$8$9`. -/
def splitWordTemplate (g : Groups) : List Char :=
  grp g 1 ++ grp g 3 ++ grp g 5 ++ grp g 7 ++ [' '] ++
    grp g 2 ++ grp g 4 ++ grp g 6 ++ grp g 8 ++ grp g 9

/-- Replacement template `$1 $2`. -/
def splitNumberLetterTemplate (g : Groups) : List Char :=
  grp g 1 ++ [' '] ++ grp g 2

/-- The scan of `ReplaceAllString`: at each position the pattern is tried; a
match is replaced by the expanded template and the scan resumes after it,
otherwise the rune is copied and the scan moves one rune on.  The first
argument bounds the number of steps. -/
def replaceLoop (re : List Char → Option (Groups × List Char)) (template : Groups → List Char) :
    Nat → List Char → List Char
  | 0, s => s
  | _ + 1, [] => []
  | fuel + 1, c :: cs =>
    match re (c :: cs) with
    | some (g, rest) => template g ++ replaceLoop re template fuel rest
    | none => c :: replaceLoop re template fuel cs

/-- Go `(*Regexp).ReplaceAllString` for a pattern that matches no empty string:
one step per rune is enough. -/
def ReplaceAllString (re : List Char → Option (Groups × List Char))
    (template : Groups → List Char) (s : List Char) : List Char :=
  replaceLoop re template s.length s

/-- A pattern that matches no empty string: the input after a match is
shorter than the input. -/
def Consumes (re : List Char → Option (Groups × List Char)) : Prop :=
  ∀ s g rest, re s = some (g, rest) → rest.length < s.length

/-! ## `strings.Fields` -/

/-- The loop of `strings.FieldsFunc(s, unicode.IsSpace)`: `cur` is the field
being read, runs of white space end it. -/
def fieldsLoop : List Char → List Char → List (List Char)
  | cur, [] => if cur = [] then [] else [cur]
  | cur, c :: cs =>
    if IsSpace c then
      if cur = [] then fieldsLoop [] cs else cur :: fieldsLoop [] cs
    else fieldsLoop (cur ++ [c]) cs

/-- Go `strings.Fields`: the maximal runs of runes that are not white space. -/
def Fields (s : List Char) : List (List Char) := fieldsLoop [] s

/-! ## `Words` -/

/-- Source `Words`: both replace passes, every rune that is neither a letter
nor a digit turned into a space, then `strings.Fields`. -/
def Words (T : UnicodeTables) (str : List Char) : List (List Char) :=
  let str := ReplaceAllString splitWordReg splitWordTemplate str
  let str := ReplaceAllString splitNumberLetterReg splitNumberLetterTemplate str
  let result := str.map (fun r => if IsLetter T r || IsDigit T r then r else ' ')
  Fields result

/-- A token holds an ASCII letter immediately next to an ASCII digit, in either
order. -/
def letterDigitAdjacent : List Char → Bool
  | a :: b :: rest =>
    (isAlphaAZ a && isDigit09 b) || (isDigit09 a && isAlphaAZ b) || letterDigitAdjacent (b :: rest)
  | _ => false

/-! ## Case converters -/

/-- Go `strings.ToLower`: every rune mapped by `unicode.ToLower`. -/
def ToLower (T : UnicodeTables) (s : List Char) : List Char := s.map (ToLowerRune T)

/-- Go `strings.Join`. -/
def Join : List (List Char) → List Char → List Char
  | [], _ => []
  | [a], _ => a
  | a :: b :: rest, sep => a ++ sep ++ Join (b :: rest) sep

/-- Modelled from the spec: the title-casing primitive
`cases.Title(language.English).String`, of package `golang.org/x/text/cases`,
which on a single token uppercases the first letter and lowercases the
remainder. -/
def titleCase (T : UnicodeTables) : List Char → List Char
  | [] => []
  | c :: cs => ToUpperRune T c :: cs.map (ToLowerRune T)

/-- Source `Capitalize`. -/
def Capitalize (T : UnicodeTables) (str : List Char) : List Char := titleCase T str

/-- Source `PascalCase`. -/
def PascalCase (T : UnicodeTables) (str : List Char) : List Char :=
  let items := Words T str
  let items := items.map (Capitalize T)
  Join items []

/-- The loop of `CamelCase` from index `i` on: every item is lowercased, and
capitalized when its index is positive. -/
def camelItems (T : UnicodeTables) : Nat → List (List Char) → List (List Char)
  | _, [] => []
  | i, item :: rest =>
    let item := ToLower T item
    let item := if i > 0 then Capitalize T item else item
    item :: camelItems T (i + 1) rest

/-- Source `CamelCase`. -/
def CamelCase (T : UnicodeTables) (str : List Char) : List Char :=
  let items := Words T str
  Join (camelItems T 0 items) []

/-- Source `KebabCase`. -/
def KebabCase (T : UnicodeTables) (str : List Char) : List Char :=
  let items := Words T str
  let items := items.map (ToLower T)
  Join items ['-']

/-! ## Character-class predicates -/

/-- Source `IsAlpha`. -/
def IsAlpha (T : UnicodeTables) (s : List Char) : Bool :=
  s.all (fun letter => IsLetter T letter)

/-- Source `IsNumeric`. -/
def IsNumeric (s : List Char) : Bool :=
  s.all (fun v => !(decide (57 < v.toNat) || decide (v.toNat < 48)))

/-- Source `IsAlphaNumeric`. -/
def IsAlphaNumeric (s : List Char) : Bool :=
  s.all (fun v =>
    !((decide (90 < v.toNat) || decide (v.toNat < 65)) &&
      (decide (122 < v.toNat) || decide (v.toNat < 97)) &&
      (decide (57 < v.toNat) || decide (v.toNat < 48))))

/-! ## Machine integers and slices -/

/-- A value of Go type `int` (64 bits). -/
def isInt (x : Int) : Prop := -(2 : Int) ^ 63 ≤ x ∧ x < (2 : Int) ^ 63

/-- A value of Go type `uint` (64 bits). -/
def isUint (n : Nat) : Prop := n < 2 ^ 64

/-- Result of an `int` operation: the mathematical result wrapped to 64 bits,
two's complement. -/
def wrapInt (x : Int) : Int := (x + (2 : Int) ^ 63) % (2 : Int) ^ 64 - (2 : Int) ^ 63

/-- Conversion `uint(x)` of an `int`, and the result of a `uint` operation:
the value modulo `2^64`. -/
def toUint (x : Int) : Nat := (x % (2 : Int) ^ 64).toNat

/-- Conversion `int(n)` of a `uint`. -/
def toInt (n : Nat) : Int := wrapInt (n : Int)

/-- Go slice expression `s[lo:hi]`: fails (a run-time panic) unless
`0 ≤ lo ≤ hi ≤ len(s)`. -/
def slice {α : Type} (s : List α) (lo hi : Int) : Option (List α) :=
  if 0 ≤ lo ∧ lo ≤ hi ∧ hi ≤ (s.length : Int) then
    some ((s.drop lo.toNat).take (hi.toNat - lo.toNat))
  else none

/-! ## `Substring` -/

/-- Modelled from the spec: `GetZeroValue[T]()`, defined in another file of the
package, returns the empty value of the string type. -/
def GetZeroValue : List Char := []

/-- Go `strings.Replace(s, "\x00", "", -1)` on a valid UTF-8 string, rune by
rune: every NUL is dropped. -/
def removeNul (s : List Char) : List Char := s.filter (fun r => r.toNat != 0)

/-- Source `Substring`; `none` stands for a run-time panic of the slice
expression. -/
def Substring (src : List Char) (offset : Int) (length : Nat) : Option (List Char) :=
  let rs := src
  let size : Int := rs.length
  let offset :=
    if offset < 0 then
      let offset := wrapInt (size + offset)
      if offset < 0 then 0 else offset
    else offset
  if offset ≥ size then some GetZeroValue
  else
    let length :=
      if length > toUint ((toUint size : Int) - (toUint offset : Int)) then
        toUint (wrapInt (size - offset))
      else length
    (slice rs offset (wrapInt (offset + toInt length))).map removeNul

/-- The rune window of the specification: with `o` the offset when it is not
negative, else `max(0, size + offset)`, the window is empty when `o ≥ size`
and otherwise holds the runes at positions `[o, o + min(length, size - o))`. -/
def runeWindow (s : List Char) (offset : Int) (length : Nat) : List Char :=
  let size : Int := s.length
  let o : Int := if offset ≥ 0 then offset else max 0 (size + offset)
  if o ≥ size then [] else (s.drop o.toNat).take (min length (s.length - o.toNat))

/-- Source `RuneLength`. -/
def RuneLength (str : List Char) : Int := str.length

/-! ## `unicode/utf8` on byte strings -/

/-- Constant `utf8.UTFMax`. -/
def UTFMax : Nat := 4

/-- Go `utf8.RuneStart`: the byte is not a continuation byte (`b&0xC0 != 0x80`). -/
def RuneStart (b : Nat) : Bool := !(decide (0x80 ≤ b) && decide (b ≤ 0xBF))

/-- Length of the encoding a leading byte in `0xC2..0xF4` announces (table
`utf8.first`). -/
def leadSize (s0 : Nat) : Nat := if s0 < 0xE0 then 2 else if s0 < 0xF0 then 3 else 4

/-- Lowest second byte accepted after a leading byte (`utf8.acceptRanges`). -/
def acceptLo (s0 : Nat) : Nat := if s0 = 0xE0 then 0xA0 else if s0 = 0xF0 then 0x90 else 0x80

/-- Highest second byte accepted after a leading byte (`utf8.acceptRanges`). -/
def acceptHi (s0 : Nat) : Nat := if s0 = 0xED then 0x9F else if s0 = 0xF4 then 0x8F else 0xBF

/-- Go `utf8.DecodeRuneInString`: the first rune of a byte string and its width
in bytes; `(RuneError, 0)` for the empty string, `(RuneError, 1)` for an
invalid encoding. -/
def DecodeRuneInString (s : List Nat) : Nat × Nat :=
  match s with
  | [] => (RuneError, 0)
  | s0 :: t =>
    if s0 < 0x80 then (s0, 1)
    else if s0 < 0xC2 ∨ 0xF4 < s0 then (RuneError, 1)
    else
      let sz := leadSize s0
      if s.length < sz then (RuneError, 1) else
      let s1 := t.getD 0 0
      if s1 < acceptLo s0 ∨ acceptHi s0 < s1 then (RuneError, 1) else
      if sz ≤ 2 then (s0 % 32 * 64 + s1 % 64, 2) else
      let s2 := t.getD 1 0
      if s2 < 0x80 ∨ 0xBF < s2 then (RuneError, 1) else
      if sz ≤ 3 then (s0 % 16 * 4096 + s1 % 64 * 64 + s2 % 64, 3) else
      let s3 := t.getD 2 0
      if s3 < 0x80 ∨ 0xBF < s3 then (RuneError, 1) else
      (s0 % 8 * 262144 + s1 % 64 * 4096 + s2 % 64 * 64 + s3 % 64, 4)

/-- The backward search of `utf8.DecodeLastRuneInString`:
`for start--; start >= lim; start-- { if RuneStart(s[start]) { break } }`,
entered with `start` already decremented. -/
def lastRuneStartLoop (s : List Nat) (lim : Int) : Nat → Int → Int
  | 0, start => start
  | fuel + 1, start =>
    if start ≥ lim then
      if RuneStart (s.getD start.toNat 0) then start
      else lastRuneStartLoop s lim fuel (start - 1)
    else start

/-- Go `utf8.DecodeLastRuneInString`: the last rune of a byte string and its
width in bytes. -/
def DecodeLastRuneInString (s : List Nat) : Nat × Nat :=
  let n := s.length
  if n = 0 then (RuneError, 0) else
  let r := s.getD (n - 1) 0
  if r < 0x80 then (r, 1) else
  let lim : Int := if (n : Int) - UTFMax < 0 then 0 else (n : Int) - UTFMax
  let start := lastRuneStartLoop s lim UTFMax ((n : Int) - 2)
  let start := if start < 0 then 0 else start
  let (r, size) := DecodeRuneInString (s.drop start.toNat)
  if start + (size : Int) ≠ (n : Int) then (RuneError, 1) else (r, size)

/-! ## `strings.TrimSpace` on byte strings -/

/-- The scan of `strings.TrimLeftFunc`: leading runes satisfying `f` are
removed. -/
def trimLeftLoop (f : Nat → Bool) : Nat → List Nat → List Nat
  | 0, s => s
  | fuel + 1, s =>
    match s with
    | [] => []
    | _ :: _ =>
      if f (DecodeRuneInString s).1 then trimLeftLoop f fuel (s.drop (DecodeRuneInString s).2)
      else s

/-- Go `strings.TrimLeftFunc`. -/
def TrimLeftFunc (s : List Nat) (f : Nat → Bool) : List Nat := trimLeftLoop f s.length s

/-- The scan of `strings.TrimRightFunc`: trailing runes satisfying `f`, read
backwards with `utf8.DecodeLastRuneInString`, are removed. -/
def trimRightLoop (f : Nat → Bool) : Nat → List Nat → List Nat
  | 0, s => s
  | fuel + 1, s =>
    match s with
    | [] => []
    | _ :: _ =>
      if f (DecodeLastRuneInString s).1 then
        trimRightLoop f fuel (s.take (s.length - (DecodeLastRuneInString s).2))
      else s

/-- Go `strings.TrimRightFunc`. -/
def TrimRightFunc (s : List Nat) (f : Nat → Bool) : List Nat := trimRightLoop f s.length s

/-- Go `strings.TrimFunc`. -/
def TrimFunc (s : List Nat) (f : Nat → Bool) : List Nat := TrimRightFunc (TrimLeftFunc s f) f

/-- Go `strings.TrimSpace`: leading and trailing white space, as defined by
Unicode, removed.  (The library's fast path for ASCII computes the same
slice.) -/
def TrimSpace (s : List Nat) : List Nat := TrimFunc s runeIsSpace

/-! ## `Ellipsis` -/

/-- The bytes of an ASCII string literal. -/
def asciiBytes (s : String) : List Nat := s.toList.map Char.toNat

/-- Source `Ellipsis`, on the bytes of the string; `none` stands for a
run-time panic of the slice expression. -/
def Ellipsis (str : List Nat) (length : Int) : Option (List Nat) :=
  let str := TrimSpace str
  if (str.length : Int) > length then
    if (str.length : Int) < 3 ∨ length < 3 then some (asciiBytes "...")
    else (slice str 0 (length - 3)).map (fun cut => TrimSpace cut ++ asciiBytes "...")
  else some str

/-! ## Quantities the properties name -/

/-- A word that starts with an ASCII lower case letter, with that letter
uppercased (`c - ('a' - 'A')`) and the rest unchanged. -/
def upperFirst : List Char → List Char
  | [] => []
  | c :: cs => Char.ofNat (c.toNat - 32) :: cs

/-- The offset `Substring` holds after its first `if`. -/
def resolvedOffset (size offset : Int) : Int :=
  if offset < 0 then
    let offset := wrapInt (size + offset)
    if offset < 0 then 0 else offset
  else offset

/-- The length `Substring` holds after its third `if`, reached when the
resolved offset is below `size`. -/
def clampedLength (size offset : Int) (length : Nat) : Nat :=
  if length > toUint ((toUint size : Int) - (toUint offset : Int)) then
    toUint (wrapInt (size - offset))
  else length

/-- A token holds an ASCII digit immediately followed by an ASCII letter. -/
def digitLetterAdjacent : List Char → Bool
  | a :: b :: rest => (isDigit09 a && isAlphaAZ b) || digitLetterAdjacent (b :: rest)
  | _ => false

/-! ## Character classes -/

theorem isSpace_space : IsSpace ' ' = true := by decide

theorem alnum_space (T : UnicodeTables) : (IsLetter T ' ' || IsDigit T ' ') = false := by
  simp [IsLetter, IsDigit, MaxLatin1, latin1Letter]

/-- A letter or digit is not white space. -/
theorem alnum_not_space (T : UnicodeTables) (c : Char)
    (h : (IsLetter T c || IsDigit T c) = true) : IsSpace c = false := by
  cases hs : IsSpace c with
  | false => rfl
  | true =>
    exfalso
    have hT := T.space_not_alnum c hs
    simp only [IsSpace, runeIsSpace, MaxLatin1] at hs
    simp only [IsLetter, IsDigit, MaxLatin1, latin1Letter] at h
    by_cases hl : c.toNat ≤ 0xFF
    · simp only [hl, if_true] at h hs
      simp at h hs
      omega
    · simp only [hl, if_false] at h
      simp [hT.1, hT.2] at h

/-! ## `ReplaceAllString` -/

theorem splitWordReg_consumes : Consumes splitWordReg := by
  intro s g rest h
  rcases s with _ | ⟨a, _ | ⟨b, r⟩⟩
  · simp [splitWordReg] at h
  · simp [splitWordReg] at h
  · simp only [splitWordReg] at h
    split_ifs at h
    · cases h; simp only [List.length_cons]; omega
    · cases h; simp only [List.length_cons]; omega
    · cases h; simp only [List.length_cons]; omega
    · rcases r with _ | ⟨c, r2⟩
      · simp at h
      · simp only at h
        split_ifs at h
        cases h; simp only [List.length_cons]; omega

theorem splitNumberLetterReg_consumes : Consumes splitNumberLetterReg := by
  intro s g rest h
  rcases s with _ | ⟨a, _ | ⟨b, r⟩⟩
  · simp [splitNumberLetterReg] at h
  · simp [splitNumberLetterReg] at h
  · simp only [splitNumberLetterReg] at h
    split_ifs at h
    cases h; simp only [List.length_cons]; omega

/-- More steps than runes change nothing. -/
theorem replaceLoop_fuel (re : List Char → Option (Groups × List Char))
    (tpl : Groups → List Char) (hre : Consumes re) :
    ∀ (fuel : Nat) (s : List Char), s.length ≤ fuel →
      replaceLoop re tpl fuel s = replaceLoop re tpl s.length s := by
  intro fuel
  induction fuel using Nat.strong_induction_on with
  | _ fuel ih =>
    intro s hs
    rcases s with _ | ⟨c, cs⟩
    · cases fuel <;> simp [replaceLoop]
    · obtain ⟨k, rfl⟩ : ∃ k, fuel = k + 1 := ⟨fuel - 1, by simp at hs; omega⟩
      simp only [replaceLoop, List.length_cons]
      simp only [List.length_cons] at hs
      cases hm : re (c :: cs) with
      | none =>
        simp only
        rw [ih k (by omega) cs (by omega)]
      | some m =>
        obtain ⟨g, rest⟩ := m
        have hlt := hre _ _ _ hm
        simp only [List.length_cons] at hlt
        simp only
        rw [ih k (by omega) rest (by omega), ih cs.length (by omega) rest (by omega)]

theorem ReplaceAllString_nil (re : List Char → Option (Groups × List Char))
    (tpl : Groups → List Char) : ReplaceAllString re tpl [] = [] := by
  simp [ReplaceAllString, replaceLoop]

theorem ReplaceAllString_single (re : List Char → Option (Groups × List Char))
    (tpl : Groups → List Char) (c : Char) (h : re [c] = none) :
    ReplaceAllString re tpl [c] = [c] := by
  simp [ReplaceAllString, replaceLoop, h]

theorem ReplaceAllString_none (re : List Char → Option (Groups × List Char))
    (tpl : Groups → List Char) (c : Char) (cs : List Char) (h : re (c :: cs) = none) :
    ReplaceAllString re tpl (c :: cs) = c :: ReplaceAllString re tpl cs := by
  simp [ReplaceAllString, replaceLoop, h]

theorem ReplaceAllString_some (re : List Char → Option (Groups × List Char))
    (tpl : Groups → List Char) (hre : Consumes re) (c : Char) (cs : List Char) (g : Groups)
    (rest : List Char) (h : re (c :: cs) = some (g, rest)) :
    ReplaceAllString re tpl (c :: cs) = tpl g ++ ReplaceAllString re tpl rest := by
  have hlt := hre _ _ _ h
  simp only [List.length_cons] at hlt
  simp only [ReplaceAllString, replaceLoop, List.length_cons, h]
  rw [replaceLoop_fuel re tpl hre cs.length rest (by omega)]

/-- A replacement that only inserts runes rejected by `p` leaves the runes
accepted by `p` as they were. -/
theorem filter_replaceLoop (p : Char → Bool) (re : List Char → Option (Groups × List Char))
    (tpl : Groups → List Char)
    (h : ∀ s g rest, re s = some (g, rest) → (tpl g).filter p ++ rest.filter p = s.filter p) :
    ∀ (fuel : Nat) (s : List Char), (replaceLoop re tpl fuel s).filter p = s.filter p := by
  intro fuel
  induction fuel with
  | zero => intro s; simp [replaceLoop]
  | succ k ih =>
    intro s
    rcases s with _ | ⟨c, cs⟩
    · simp [replaceLoop]
    · simp only [replaceLoop]
      cases hm : re (c :: cs) with
      | none =>
        simp only [List.filter_cons, ih cs]
      | some m =>
        obtain ⟨g, rest⟩ := m
        simp only [List.filter_append, ih rest]
        exact h _ _ _ hm

theorem splitWordReg_filter (p : Char → Bool) (hp : p ' ' = false) :
    ∀ s g rest, splitWordReg s = some (g, rest) →
      (splitWordTemplate g).filter p ++ rest.filter p = s.filter p := by
  intro s g rest h
  rcases s with _ | ⟨a, _ | ⟨b, r⟩⟩
  · simp [splitWordReg] at h
  · simp [splitWordReg] at h
  · simp only [splitWordReg] at h
    split_ifs at h
    · cases h; by_cases ha : p a = true <;> by_cases hb : p b = true <;>
        simp [splitWordTemplate, grp, List.filter_cons, hp, ha, hb]
    · cases h; by_cases ha : p a = true <;> by_cases hb : p b = true <;>
        simp [splitWordTemplate, grp, List.filter_cons, hp, ha, hb]
    · cases h; by_cases ha : p a = true <;> by_cases hb : p b = true <;>
        simp [splitWordTemplate, grp, List.filter_cons, hp, ha, hb]
    · rcases r with _ | ⟨c, r2⟩
      · simp at h
      · simp only at h
        split_ifs at h
        cases h
        by_cases ha : p a = true <;> by_cases hb : p b = true <;> by_cases hc : p c = true <;>
          simp [splitWordTemplate, grp, List.filter_cons, hp, ha, hb, hc]

theorem splitNumberLetterReg_filter (p : Char → Bool) (hp : p ' ' = false) :
    ∀ s g rest, splitNumberLetterReg s = some (g, rest) →
      (splitNumberLetterTemplate g).filter p ++ rest.filter p = s.filter p := by
  intro s g rest h
  rcases s with _ | ⟨a, _ | ⟨b, r⟩⟩
  · simp [splitNumberLetterReg] at h
  · simp [splitNumberLetterReg] at h
  · simp only [splitNumberLetterReg] at h
    split_ifs at h
    cases h; by_cases ha : p a = true <;> by_cases hb : p b = true <;>
      simp [splitNumberLetterTemplate, grp, List.filter_cons, hp, ha, hb]

/-! ## `strings.Fields` -/

theorem fieldsLoop_flatten (s : List Char) : ∀ cur : List Char,
    (fieldsLoop cur s).flatten = cur ++ s.filter (fun c => !IsSpace c) := by
  induction s with
  | nil => intro cur; by_cases h : cur = [] <;> simp [fieldsLoop, h]
  | cons c cs ih =>
    intro cur
    simp only [fieldsLoop]
    by_cases hc : IsSpace c = true
    · by_cases h : cur = [] <;> simp [hc, h, ih]
    · simp [hc, ih]

theorem fieldsLoop_mem (s : List Char) : ∀ cur : List Char,
    (∀ c ∈ cur, IsSpace c = false) →
    ∀ t ∈ fieldsLoop cur s, t ≠ [] ∧ ∀ c ∈ t, IsSpace c = false ∧ (c ∈ cur ∨ c ∈ s) := by
  induction s with
  | nil =>
    intro cur hcur t ht
    by_cases h : cur = []
    · simp [fieldsLoop, h] at ht
    · simp only [fieldsLoop, h, if_false, List.mem_singleton] at ht
      subst ht
      exact ⟨h, fun c hc => ⟨hcur c hc, Or.inl hc⟩⟩
  | cons c cs ih =>
    intro cur hcur t ht
    simp only [fieldsLoop] at ht
    by_cases hc : IsSpace c = true
    · simp only [hc, if_true] at ht
      by_cases h : cur = []
      · simp only [h, if_true] at ht
        obtain ⟨h1, h2⟩ := ih [] (by simp) t ht
        refine ⟨h1, fun d hd => ⟨(h2 d hd).1, ?_⟩⟩
        rcases (h2 d hd).2 with h3 | h3
        · simp at h3
        · exact Or.inr (List.mem_cons_of_mem _ h3)
      · simp only [h, if_false, List.mem_cons] at ht
        rcases ht with rfl | ht
        · exact ⟨h, fun d hd => ⟨hcur d hd, Or.inl hd⟩⟩
        · obtain ⟨h1, h2⟩ := ih [] (by simp) t ht
          refine ⟨h1, fun d hd => ⟨(h2 d hd).1, ?_⟩⟩
          rcases (h2 d hd).2 with h3 | h3
          · simp at h3
          · exact Or.inr (List.mem_cons_of_mem _ h3)
    · simp only [hc] at ht
      have hc2 : IsSpace c = false := by simpa using hc
      obtain ⟨h1, h2⟩ := ih (cur ++ [c]) (by
        intro d hd
        rcases List.mem_append.1 hd with h3 | h3
        · exact hcur d h3
        · simp at h3; subst h3; exact hc2) t (by simpa using ht)
      refine ⟨h1, fun d hd => ⟨(h2 d hd).1, ?_⟩⟩
      rcases (h2 d hd).2 with h3 | h3
      · rcases List.mem_append.1 h3 with h4 | h4
        · exact Or.inl h4
        · simp at h4; subst h4; exact Or.inr (List.mem_cons_self _ _)
      · exact Or.inr (List.mem_cons_of_mem _ h3)

/-! ## `Words`: content and shape of the tokens -/

/-- The rune-wise pass of `Words` followed by the removal of white space keeps
exactly the letters and digits. -/
theorem filter_map_alnum (T : UnicodeTables) (s : List Char) :
    (s.map (fun r => if (IsLetter T r || IsDigit T r) = true then r else ' ')).filter
      (fun c => !IsSpace c) = s.filter (fun c => IsLetter T c || IsDigit T c) := by
  induction s with
  | nil => rfl
  | cons c cs ih =>
    by_cases h : (IsLetter T c || IsDigit T c) = true
    · have hs := alnum_not_space T c h
      simp only [List.map_cons, h, if_true, List.filter_cons, hs, Bool.not_false]
      rw [ih]
    · simp only [List.map_cons, h, if_false, List.filter_cons, isSpace_space, Bool.not_true]
      rw [ih]
      simp [isSpace_space]

/-- C2: concatenating the tokens of `Words s` in order gives `s` with every
rune that is neither a letter nor a digit deleted; the remaining runes keep
their order and their case. -/
theorem Words_flatten (T : UnicodeTables) (s : List Char) :
    (Words T s).flatten = s.filter (fun c => IsLetter T c || IsDigit T c) := by
  simp only [Words, Fields, fieldsLoop_flatten, List.nil_append, ReplaceAllString]
  rw [filter_map_alnum,
    filter_replaceLoop _ _ _ (splitNumberLetterReg_filter _ (alnum_space T)),
    filter_replaceLoop _ _ _ (splitWordReg_filter _ (alnum_space T))]

/-- C3: every token of `Words s` is non-empty and consists only of runes that
are letters or digits. -/
theorem Words_tokens_alnum (T : UnicodeTables) (s : List Char) :
    ∀ t ∈ Words T s, t ≠ [] ∧ ∀ c ∈ t, IsLetter T c = true ∨ IsDigit T c = true := by
  intro t ht
  simp only [Words, Fields] at ht
  obtain ⟨h1, h2⟩ := fieldsLoop_mem _ [] (by simp) t ht
  refine ⟨h1, fun c hc => ?_⟩
  obtain ⟨hs, hm⟩ := h2 c hc
  rcases hm with hm | hm
  · simp at hm
  · obtain ⟨r, -, hr⟩ := List.mem_map.1 hm
    by_cases h : (IsLetter T r || IsDigit T r) = true
    · simp only [h, if_true] at hr
      subst hr
      simpa using h
    · simp only [h, if_false] at hr
      subst hr
      simp [isSpace_space] at hs

/-- Witness for C3: the tokens of `Words("HTTPServer, 2nd")`. -/
theorem Words_tokens_alnum_witness :
    "2".toList ∈ Words sampleTables "HTTPServer, 2nd".toList ∧
    ("2".toList ≠ [] ∧
      ∀ c ∈ "2".toList, IsLetter sampleTables c = true ∨ IsDigit sampleTables c = true) :=
  ⟨by decide, Words_tokens_alnum sampleTables "HTTPServer, 2nd".toList "2".toList (by decide)⟩

/-- C1: at the input `1a2` the first pass splits `1|a` and steps over `a2`,
the second pass only looks for a digit followed by a letter, and `Words`
returns the token `a2`, an ASCII letter immediately followed by an ASCII
digit. -/
theorem Words_letter_digit_unsplit (T : UnicodeTables) :
    Words T "1a2".toList = ["1".toList, "a2".toList] ∧
    (Words T "1a2".toList).any letterDigitAdjacent = true :=
  ⟨rfl, rfl⟩

/-! ## Classes of ASCII runes -/

theorem lower_not_upper {c : Char} (h : isLowerAZ c = true) : isUpperAZ c = false := by
  simp only [isLowerAZ, isUpperAZ, Bool.and_eq_true, decide_eq_true_eq] at h ⊢
  simp; omega

theorem lower_not_digit {c : Char} (h : isLowerAZ c = true) : isDigit09 c = false := by
  simp only [isLowerAZ, isDigit09, Bool.and_eq_true, decide_eq_true_eq] at h ⊢
  simp; omega

theorem upper_not_lower {c : Char} (h : isUpperAZ c = true) : isLowerAZ c = false := by
  simp only [isLowerAZ, isUpperAZ, Bool.and_eq_true, decide_eq_true_eq] at h ⊢
  simp; omega

theorem upper_not_digit {c : Char} (h : isUpperAZ c = true) : isDigit09 c = false := by
  simp only [isUpperAZ, isDigit09, Bool.and_eq_true, decide_eq_true_eq] at h ⊢
  simp; omega

theorem digit_not_lower {c : Char} (h : isDigit09 c = true) : isLowerAZ c = false := by
  simp only [isLowerAZ, isDigit09, Bool.and_eq_true, decide_eq_true_eq] at h ⊢
  simp; omega

theorem digit_not_upper {c : Char} (h : isDigit09 c = true) : isUpperAZ c = false := by
  simp only [isUpperAZ, isDigit09, Bool.and_eq_true, decide_eq_true_eq] at h ⊢
  simp; omega

theorem lower_alnum (T : UnicodeTables) {c : Char} (h : isLowerAZ c = true) :
    (IsLetter T c || IsDigit T c) = true := by
  simp only [isLowerAZ, Bool.and_eq_true, decide_eq_true_eq] at h
  have h1 : c.toNat ≤ MaxLatin1 := by simp only [MaxLatin1]; omega
  simp only [IsLetter, IsDigit, h1, if_true, latin1Letter]
  simp; omega

theorem upper_alnum (T : UnicodeTables) {c : Char} (h : isUpperAZ c = true) :
    (IsLetter T c || IsDigit T c) = true := by
  simp only [isUpperAZ, Bool.and_eq_true, decide_eq_true_eq] at h
  have h1 : c.toNat ≤ MaxLatin1 := by simp only [MaxLatin1]; omega
  simp only [IsLetter, IsDigit, h1, if_true, latin1Letter]
  simp; omega

theorem digit_alnum (T : UnicodeTables) {c : Char} (h : isDigit09 c = true) :
    (IsLetter T c || IsDigit T c) = true := by
  simp only [isDigit09, Bool.and_eq_true, decide_eq_true_eq] at h
  have h1 : c.toNat ≤ MaxLatin1 := by simp only [MaxLatin1]; omega
  simp only [IsLetter, IsDigit, h1, if_true, latin1Letter]
  simp; omega

/-! ## The first replace pass on runs of one class -/

theorem splitWord_lower_lower {a b : Char} (t : List Char) (ha : isLowerAZ a = true)
    (hb : isLowerAZ b = true) :
    ReplaceAllString splitWordReg splitWordTemplate (a :: b :: t) =
      a :: ReplaceAllString splitWordReg splitWordTemplate (b :: t) := by
  apply ReplaceAllString_none
  have h1 := lower_not_upper ha
  have h2 := lower_not_digit ha
  have h3 := lower_not_upper hb
  have h4 := lower_not_digit hb
  rcases t with _ | ⟨c, t⟩ <;> simp [splitWordReg, isAlphaAZ, isUpperOrDigit, *]

theorem splitWord_lower_run (w : List Char) (hw : ∀ c ∈ w, isLowerAZ c = true) :
    ReplaceAllString splitWordReg splitWordTemplate w = w := by
  induction w with
  | nil => exact ReplaceAllString_nil _ _
  | cons a t ih =>
    rcases t with _ | ⟨b, t⟩
    · exact ReplaceAllString_single _ _ _ (by simp [splitWordReg])
    · rw [splitWord_lower_lower t (hw a (by simp)) (hw b (by simp)),
        ih (fun c hc => hw c (List.mem_cons_of_mem _ hc))]

theorem splitWord_lower_upper {a b : Char} (t : List Char) (ha : isLowerAZ a = true)
    (hb : isUpperAZ b = true) :
    ReplaceAllString splitWordReg splitWordTemplate (a :: b :: t) =
      a :: ' ' :: b :: ReplaceAllString splitWordReg splitWordTemplate t := by
  rw [ReplaceAllString_some _ _ splitWordReg_consumes a (b :: t)
    [[a], [b], [], [], [], [], [], [], []] t (by simp [splitWordReg, isUpperOrDigit, ha, hb])]
  rfl

theorem splitWord_lower_digit {a b : Char} (t : List Char) (ha : isLowerAZ a = true)
    (hb : isDigit09 b = true) :
    ReplaceAllString splitWordReg splitWordTemplate (a :: b :: t) =
      a :: ' ' :: b :: ReplaceAllString splitWordReg splitWordTemplate t := by
  rw [ReplaceAllString_some _ _ splitWordReg_consumes a (b :: t)
    [[a], [b], [], [], [], [], [], [], []] t (by simp [splitWordReg, isUpperOrDigit, ha, hb])]
  rfl

theorem splitWord_digit_digit {a b : Char} (t : List Char) (ha : isDigit09 a = true)
    (hb : isDigit09 b = true) :
    ReplaceAllString splitWordReg splitWordTemplate (a :: b :: t) =
      a :: ReplaceAllString splitWordReg splitWordTemplate (b :: t) := by
  apply ReplaceAllString_none
  have h1 := digit_not_upper ha
  have h2 := digit_not_lower ha
  have h3 := digit_not_upper hb
  have h4 := digit_not_lower hb
  rcases t with _ | ⟨c, t⟩ <;> simp [splitWordReg, isAlphaAZ, isUpperOrDigit, *]

theorem splitWord_digit_lower {a b : Char} (t : List Char) (ha : isDigit09 a = true)
    (hb : isLowerAZ b = true) :
    ReplaceAllString splitWordReg splitWordTemplate (a :: b :: t) =
      a :: ' ' :: b :: ReplaceAllString splitWordReg splitWordTemplate t := by
  have h1 := digit_not_upper ha
  have h2 := digit_not_lower ha
  have h3 := lower_not_upper hb
  have h4 := lower_not_digit hb
  rw [ReplaceAllString_some _ _ splitWordReg_consumes a (b :: t)
    [[], [], [], [], [a], [b], [], [], []] t (by simp [splitWordReg, isAlphaAZ, isUpperOrDigit, *])]
  rfl

theorem splitWord_upper_upper_upper {a b c : Char} (t : List Char) (ha : isUpperAZ a = true)
    (hb : isUpperAZ b = true) (hc : isUpperAZ c = true) :
    ReplaceAllString splitWordReg splitWordTemplate (a :: b :: c :: t) =
      a :: ReplaceAllString splitWordReg splitWordTemplate (b :: c :: t) := by
  apply ReplaceAllString_none
  have h1 := upper_not_lower ha
  have h2 := upper_not_digit ha
  have h3 := upper_not_lower hb
  have h4 := upper_not_digit hb
  have h5 := upper_not_lower hc
  simp [splitWordReg, isAlphaAZ, isUpperOrDigit, *]

theorem splitWord_upper_upper_lower {a b c : Char} (t : List Char) (ha : isUpperAZ a = true)
    (hb : isUpperAZ b = true) (hc : isLowerAZ c = true) :
    ReplaceAllString splitWordReg splitWordTemplate (a :: b :: c :: t) =
      a :: ' ' :: b :: c :: ReplaceAllString splitWordReg splitWordTemplate t := by
  have h1 := upper_not_lower ha
  have h2 := upper_not_digit ha
  have h3 := upper_not_lower hb
  have h4 := upper_not_digit hb
  rw [ReplaceAllString_some _ _ splitWordReg_consumes a (b :: c :: t)
    [[], [], [], [], [], [], [a], [b], [c]] t (by simp [splitWordReg, isAlphaAZ, isUpperOrDigit, *])]
  rfl

/-! ## The second replace pass -/

theorem splitNumberLetter_skip {a : Char} (t : List Char) (ha : isDigit09 a = false) :
    ReplaceAllString splitNumberLetterReg splitNumberLetterTemplate (a :: t) =
      a :: ReplaceAllString splitNumberLetterReg splitNumberLetterTemplate t := by
  apply ReplaceAllString_none
  rcases t with _ | ⟨c, t⟩ <;> simp [splitNumberLetterReg, ha]

theorem splitNumberLetter_digit_other {a b : Char} (t : List Char) (hb : isAlphaAZ b = false) :
    ReplaceAllString splitNumberLetterReg splitNumberLetterTemplate (a :: b :: t) =
      a :: ReplaceAllString splitNumberLetterReg splitNumberLetterTemplate (b :: t) := by
  apply ReplaceAllString_none
  simp [splitNumberLetterReg, hb]

theorem splitNumberLetter_digit_letter {a b : Char} (t : List Char) (ha : isDigit09 a = true)
    (hb : isAlphaAZ b = true) :
    ReplaceAllString splitNumberLetterReg splitNumberLetterTemplate (a :: b :: t) =
      a :: ' ' :: b :: ReplaceAllString splitNumberLetterReg splitNumberLetterTemplate t := by
  rw [ReplaceAllString_some _ _ splitNumberLetterReg_consumes a (b :: t) [[a], [b]] t
    (by simp [splitNumberLetterReg, ha, hb])]
  rfl

theorem splitNumberLetter_no_digit (w t : List Char) (hw : ∀ c ∈ w, isDigit09 c = false) :
    ReplaceAllString splitNumberLetterReg splitNumberLetterTemplate (w ++ t) =
      w ++ ReplaceAllString splitNumberLetterReg splitNumberLetterTemplate t := by
  induction w with
  | nil => rfl
  | cons a w ih =>
    rw [List.cons_append, splitNumberLetter_skip _ (hw a (by simp)),
      ih (fun c hc => hw c (List.mem_cons_of_mem _ hc))]
    rfl

theorem splitNumberLetter_digits_space (d t : List Char) (hd : ∀ c ∈ d, isDigit09 c = true) :
    ReplaceAllString splitNumberLetterReg splitNumberLetterTemplate (d ++ ' ' :: t) =
      d ++ ' ' :: ReplaceAllString splitNumberLetterReg splitNumberLetterTemplate t := by
  induction d with
  | nil => exact splitNumberLetter_skip t (by decide)
  | cons a d ih =>
    rcases d with _ | ⟨b, d⟩
    · rw [List.cons_append, List.nil_append, splitNumberLetter_digit_other _ (by decide),
        splitNumberLetter_skip t (by decide)]
      rfl
    · have hb : isDigit09 b = true := hd b (by simp)
      have hb2 : isAlphaAZ b = false := by
        simp [isAlphaAZ, digit_not_lower hb, digit_not_upper hb]
      rw [List.cons_append, List.cons_append, splitNumberLetter_digit_other _ hb2,
        ← List.cons_append, ih (fun c hc => hd c (List.mem_cons_of_mem _ hc))]
      rfl

/-! ## The rune-wise pass and `Fields` on ASCII words -/

theorem alnumAZ09_alnum (T : UnicodeTables) {c : Char} (h : isAlnumAZ09 c = true) :
    (IsLetter T c || IsDigit T c) = true := by
  simp only [isAlnumAZ09, Bool.or_eq_true] at h
  rcases h with (h | h) | h
  · exact lower_alnum T h
  · exact upper_alnum T h
  · exact digit_alnum T h

theorem alnumAZ09_not_space {c : Char} (h : isAlnumAZ09 c = true) : IsSpace c = false :=
  alnum_not_space sampleTables c (alnumAZ09_alnum sampleTables h)

theorem map_alnum_or_space (T : UnicodeTables) (s : List Char)
    (h : ∀ c ∈ s, isAlnumAZ09 c = true ∨ c = ' ') :
    s.map (fun r => if (IsLetter T r || IsDigit T r) = true then r else ' ') = s := by
  induction s with
  | nil => rfl
  | cons c cs ih =>
    rw [List.map_cons, ih (fun d hd => h d (List.mem_cons_of_mem _ hd))]
    rcases h c (by simp) with hc | hc
    · simp [alnumAZ09_alnum T hc]
    · subst hc
      simp [alnum_space T]

theorem fieldsLoop_run (w t : List Char) (hw : ∀ c ∈ w, IsSpace c = false) :
    ∀ cur : List Char, fieldsLoop cur (w ++ t) = fieldsLoop (cur ++ w) t := by
  induction w with
  | nil => intro cur; simp
  | cons a w ih =>
    intro cur
    have ha : IsSpace a = false := hw a (by simp)
    rw [List.cons_append, fieldsLoop]
    simp only [ha, Bool.false_eq_true, if_false]
    rw [ih (fun c hc => hw c (List.mem_cons_of_mem _ hc))]
    simp

theorem Fields_word_space (w t : List Char) (hw : ∀ c ∈ w, IsSpace c = false) (hne : w ≠ []) :
    Fields (w ++ ' ' :: t) = w :: Fields t := by
  rw [Fields, fieldsLoop_run w _ hw, List.nil_append, fieldsLoop]
  simp [isSpace_space, hne, Fields]

theorem Fields_word (w : List Char) (hw : ∀ c ∈ w, IsSpace c = false) (hne : w ≠ []) :
    Fields w = [w] := by
  have h := fieldsLoop_run w [] hw []
  rw [List.append_nil, List.nil_append] at h
  rw [Fields, h, fieldsLoop]
  simp [hne]

/-- When both replace passes turn `s` into a string `r` of ASCII letters,
digits and spaces, `Words s` is `Fields r`. -/
theorem Words_of_passes (T : UnicodeTables) (s r : List Char)
    (h : ReplaceAllString splitNumberLetterReg splitNumberLetterTemplate
      (ReplaceAllString splitWordReg splitWordTemplate s) = r)
    (hr : ∀ c ∈ r, isAlnumAZ09 c = true ∨ c = ' ') : Words T s = Fields r := by
  simp only [Words, h, map_alnum_or_space T r hr]

/-! ## Runs in the first pass -/

theorem splitWord_lower_skip (u : List Char) (hu : ∀ c ∈ u, isLowerAZ c = true) {a : Char}
    (ha : isLowerAZ a = true) (t : List Char) :
    ReplaceAllString splitWordReg splitWordTemplate (u ++ a :: t) =
      u ++ ReplaceAllString splitWordReg splitWordTemplate (a :: t) := by
  induction u with
  | nil => rfl
  | cons b u ih =>
    have hb : isLowerAZ b = true := hu b (by simp)
    have ih2 := ih (fun c hc => hu c (List.mem_cons_of_mem _ hc))
    rcases u with _ | ⟨c, u⟩
    · exact splitWord_lower_lower t hb ha
    · have hc : isLowerAZ c = true := hu c (by simp)
      rw [List.cons_append, List.cons_append, splitWord_lower_lower _ hb hc,
        ← List.cons_append, ih2]
      rfl

theorem splitWord_digit_skip (d : List Char) (hd : ∀ c ∈ d, isDigit09 c = true) {a : Char}
    (ha : isDigit09 a = true) (t : List Char) :
    ReplaceAllString splitWordReg splitWordTemplate (d ++ a :: t) =
      d ++ ReplaceAllString splitWordReg splitWordTemplate (a :: t) := by
  induction d with
  | nil => rfl
  | cons b d ih =>
    have hb : isDigit09 b = true := hd b (by simp)
    have ih2 := ih (fun c hc => hd c (List.mem_cons_of_mem _ hc))
    rcases d with _ | ⟨c, d⟩
    · exact splitWord_digit_digit t hb ha
    · have hc : isDigit09 c = true := hd c (by simp)
      rw [List.cons_append, List.cons_append, splitWord_digit_digit _ hb hc,
        ← List.cons_append, ih2]
      rfl

theorem splitWord_upper_skip (u : List Char) (hu : ∀ c ∈ u, isUpperAZ c = true) {a b : Char}
    (ha : isUpperAZ a = true) (hb : isUpperAZ b = true) (t : List Char) :
    ReplaceAllString splitWordReg splitWordTemplate (u ++ a :: b :: t) =
      u ++ ReplaceAllString splitWordReg splitWordTemplate (a :: b :: t) := by
  induction u with
  | nil => rfl
  | cons c u ih =>
    have hc : isUpperAZ c = true := hu c (by simp)
    have ih2 := ih (fun x hx => hu x (List.mem_cons_of_mem _ hx))
    rcases u with _ | ⟨d, _ | ⟨e, u⟩⟩
    · exact splitWord_upper_upper_upper t hc ha hb
    · have hd : isUpperAZ d = true := hu d (by simp)
      have h := splitWord_upper_upper_upper (b :: t) hc hd ha
      rw [show [c, d] ++ a :: b :: t = c :: d :: a :: b :: t from rfl, h,
        show d :: a :: b :: t = [d] ++ a :: b :: t from rfl, ih2]
      rfl
    · have hd : isUpperAZ d = true := hu d (by simp)
      have he : isUpperAZ e = true := hu e (by simp)
      have h := splitWord_upper_upper_upper (u ++ a :: b :: t) hc hd he
      rw [show (c :: d :: e :: u) ++ a :: b :: t = c :: d :: e :: (u ++ a :: b :: t) from rfl, h,
        show d :: e :: (u ++ a :: b :: t) = (d :: e :: u) ++ a :: b :: t from rfl, ih2]
      rfl

/-! ## `Words` at the boundaries of the specification -/

theorem lower_alnumAZ09 {c : Char} (h : isLowerAZ c = true) : isAlnumAZ09 c = true := by
  simp [isAlnumAZ09, h]

theorem upper_alnumAZ09 {c : Char} (h : isUpperAZ c = true) : isAlnumAZ09 c = true := by
  simp [isAlnumAZ09, h]

theorem digit_alnumAZ09 {c : Char} (h : isDigit09 c = true) : isAlnumAZ09 c = true := by
  simp [isAlnumAZ09, h]

theorem splitNumberLetter_no_digit_all (r : List Char) (hr : ∀ c ∈ r, isDigit09 c = false) :
    ReplaceAllString splitNumberLetterReg splitNumberLetterTemplate r = r := by
  have h := splitNumberLetter_no_digit r [] hr
  rw [List.append_nil, ReplaceAllString_nil, List.append_nil] at h
  exact h

theorem exists_append_singleton (u : List Char) (hu : u ≠ []) : ∃ u0 a, u = u0 ++ [a] :=
  ⟨u.dropLast, u.getLast hu, (List.dropLast_append_getLast hu).symm⟩

/-- C5: a run of lower case letters followed by a capitalized word (one upper
case letter, then lower case letters) is split before the upper case letter. -/
theorem Words_lower_upper (T : UnicodeTables) (u : List Char) (V : Char) (w : List Char)
    (hu : u ≠ []) (hul : ∀ c ∈ u, isLowerAZ c = true) (hV : isUpperAZ V = true)
    (hw : ∀ c ∈ w, isLowerAZ c = true) :
    Words T (u ++ V :: w) = [u, V :: w] := by
  obtain ⟨u0, a, rfl⟩ := exists_append_singleton u hu
  have ha : isLowerAZ a = true := hul a (by simp)
  have hu0 : ∀ c ∈ u0, isLowerAZ c = true := fun c hc => hul c (by simp [hc])
  have h1 : ReplaceAllString splitWordReg splitWordTemplate (u0 ++ [a] ++ V :: w) =
      u0 ++ [a] ++ ' ' :: V :: w := by
    rw [List.append_assoc, List.singleton_append, splitWord_lower_skip u0 hu0 ha,
      splitWord_lower_upper _ ha hV, splitWord_lower_run w hw]
    simp
  have h2 : ReplaceAllString splitNumberLetterReg splitNumberLetterTemplate
      (u0 ++ [a] ++ ' ' :: V :: w) = u0 ++ [a] ++ ' ' :: V :: w := by
    apply splitNumberLetter_no_digit_all
    simp only [List.forall_mem_append, List.forall_mem_cons]
    exact ⟨⟨fun c hc => lower_not_digit (hu0 c hc), lower_not_digit ha, by simp⟩, by decide,
      upper_not_digit hV, fun c hc => lower_not_digit (hw c hc)⟩
  rw [Words_of_passes T _ (u0 ++ [a] ++ ' ' :: V :: w) (by rw [h1, h2])]
  · rw [Fields_word_space _ _ (fun c hc => alnumAZ09_not_space (lower_alnumAZ09 (hul c hc))) hu,
      Fields_word _ _ (by simp)]
    simp only [List.forall_mem_cons]
    exact ⟨alnumAZ09_not_space (upper_alnumAZ09 hV),
      fun c hc => alnumAZ09_not_space (lower_alnumAZ09 (hw c hc))⟩
  · simp only [List.forall_mem_append, List.forall_mem_cons]
    exact ⟨⟨fun c hc => Or.inl (lower_alnumAZ09 (hu0 c hc)), Or.inl (lower_alnumAZ09 ha),
      by simp⟩, Or.inr trivial, Or.inl (upper_alnumAZ09 hV),
      fun c hc => Or.inl (lower_alnumAZ09 (hw c hc))⟩

/-- Witness for C5: `Words("helloWorld") = ["hello", "World"]`. -/
theorem Words_lower_upper_witness :
    Words sampleTables "helloWorld".toList = ["hello".toList, "World".toList] :=
  Words_lower_upper sampleTables "hello".toList 'W' "orld".toList (by decide) (by decide)
    (by decide) (by decide)

/-- C4: a run of upper case letters followed by a capitalized word with at
least one lower case letter is split before the last upper case letter of the
whole run, the one that starts the word. -/
theorem Words_acronym (T : UnicodeTables) (U : List Char) (V : Char) (v : List Char)
    (hU : U ≠ []) (hUu : ∀ c ∈ U, isUpperAZ c = true) (hV : isUpperAZ V = true)
    (hv : v ≠ []) (hvl : ∀ c ∈ v, isLowerAZ c = true) :
    Words T (U ++ V :: v) = [U, V :: v] := by
  obtain ⟨U0, A, rfl⟩ := exists_append_singleton U hU
  obtain ⟨v1, v2, rfl⟩ := List.exists_cons_of_ne_nil hv
  have hA : isUpperAZ A = true := hUu A (by simp)
  have hU0 : ∀ c ∈ U0, isUpperAZ c = true := fun c hc => hUu c (by simp [hc])
  have hv1 : isLowerAZ v1 = true := hvl v1 (by simp)
  have hv2 : ∀ c ∈ v2, isLowerAZ c = true := fun c hc => hvl c (by simp [hc])
  have h1 : ReplaceAllString splitWordReg splitWordTemplate (U0 ++ [A] ++ V :: v1 :: v2) =
      U0 ++ [A] ++ ' ' :: V :: v1 :: v2 := by
    rw [List.append_assoc, List.singleton_append, splitWord_upper_skip U0 hU0 hA hV,
      splitWord_upper_upper_lower _ hA hV hv1, splitWord_lower_run v2 hv2]
    simp
  have h2 : ReplaceAllString splitNumberLetterReg splitNumberLetterTemplate
      (U0 ++ [A] ++ ' ' :: V :: v1 :: v2) = U0 ++ [A] ++ ' ' :: V :: v1 :: v2 := by
    apply splitNumberLetter_no_digit_all
    intro c hc
    simp only [List.mem_append, List.mem_cons, List.mem_singleton, List.not_mem_nil,
      or_false] at hc
    rcases hc with (hc | rfl) | rfl | rfl | rfl | hc
    · exact upper_not_digit (hU0 c hc)
    · exact upper_not_digit hA
    · decide
    · exact upper_not_digit hV
    · exact lower_not_digit hv1
    · exact lower_not_digit (hv2 c hc)
  rw [Words_of_passes T _ (U0 ++ [A] ++ ' ' :: V :: v1 :: v2) (by rw [h1, h2])]
  · rw [Fields_word_space _ _ (fun c hc => alnumAZ09_not_space (upper_alnumAZ09 (hUu c hc))) hU,
      Fields_word _ _ (by simp)]
    intro c hc
    simp only [List.mem_cons] at hc
    rcases hc with rfl | rfl | hc
    · exact alnumAZ09_not_space (upper_alnumAZ09 hV)
    · exact alnumAZ09_not_space (lower_alnumAZ09 hv1)
    · exact alnumAZ09_not_space (lower_alnumAZ09 (hv2 c hc))
  · intro c hc
    simp only [List.mem_append, List.mem_cons, List.mem_singleton, List.not_mem_nil,
      or_false] at hc
    rcases hc with (hc | rfl) | rfl | rfl | rfl | hc
    · exact Or.inl (upper_alnumAZ09 (hU0 c hc))
    · exact Or.inl (upper_alnumAZ09 hA)
    · exact Or.inr rfl
    · exact Or.inl (upper_alnumAZ09 hV)
    · exact Or.inl (lower_alnumAZ09 hv1)
    · exact Or.inl (lower_alnumAZ09 (hv2 c hc))

/-- Witness for C4: `Words("HTTPServer") = ["HTTP", "Server"]`, not
`["HTTPS", "erver"]`. -/
theorem Words_acronym_witness :
    Words sampleTables "HTTPServer".toList = ["HTTP".toList, "Server".toList] ∧
    Words sampleTables "HTTPServer".toList ≠ ["HTTPS".toList, "erver".toList] :=
  ⟨Words_acronym sampleTables "HTTP".toList 'S' "erver".toList (by decide) (by decide)
    (by decide) (by decide) (by decide), by decide⟩

/-- Both replace passes on lower case letters, then digits, then lower case
letters: a space on either side of the digits. -/
theorem passes_letter_digit_letter (u0 : List Char) (a d1 : Char) (d2 : List Char) (w1 : Char)
    (w2 : List Char) (hu0 : ∀ c ∈ u0, isLowerAZ c = true) (ha : isLowerAZ a = true)
    (hd1 : isDigit09 d1 = true) (hd2 : ∀ c ∈ d2, isDigit09 c = true)
    (hw1 : isLowerAZ w1 = true) (hw2 : ∀ c ∈ w2, isLowerAZ c = true) :
    ReplaceAllString splitNumberLetterReg splitNumberLetterTemplate
      (ReplaceAllString splitWordReg splitWordTemplate
        (u0 ++ [a] ++ (d1 :: d2) ++ (w1 :: w2))) =
      u0 ++ [a] ++ ' ' :: (d1 :: d2) ++ ' ' :: (w1 :: w2) := by
  have hw1a : isAlphaAZ w1 = true := by simp [isAlphaAZ, hw1]
  have hw2d : ∀ c ∈ w2, isDigit09 c = false := fun c hc => lower_not_digit (hw2 c hc)
  have hpre : ∀ c ∈ u0 ++ [a, ' '], isDigit09 c = false := by
    intro c hc
    simp only [List.mem_append, List.mem_cons, List.mem_singleton, List.not_mem_nil,
      or_false] at hc
    rcases hc with hc | rfl | rfl
    · exact lower_not_digit (hu0 c hc)
    · exact lower_not_digit ha
    · decide
  have e0 : u0 ++ [a] ++ (d1 :: d2) ++ (w1 :: w2) = u0 ++ a :: d1 :: (d2 ++ w1 :: w2) := by
    simp
  rw [e0, splitWord_lower_skip u0 hu0 ha, splitWord_lower_digit _ ha hd1]
  rcases List.eq_nil_or_concat d2 with rfl | ⟨d0, e, rfl⟩
  · rw [List.nil_append, splitWord_lower_run (w1 :: w2) (by
      intro c hc
      simp only [List.mem_cons] at hc
      rcases hc with rfl | hc
      · exact hw1
      · exact hw2 c hc)]
    have e1 : u0 ++ a :: ' ' :: d1 :: w1 :: w2 = (u0 ++ [a, ' ']) ++ d1 :: w1 :: w2 := by simp
    rw [e1, splitNumberLetter_no_digit _ _ hpre, splitNumberLetter_digit_letter _ hd1 hw1a,
      splitNumberLetter_no_digit_all w2 hw2d]
    simp
  · rw [List.concat_eq_append] at hd2 ⊢
    have he : isDigit09 e = true := hd2 e (by simp)
    have hd0 : ∀ c ∈ d0, isDigit09 c = true := fun c hc => hd2 c (by simp [hc])
    have e2 : d0 ++ [e] ++ w1 :: w2 = d0 ++ e :: w1 :: w2 := by simp
    rw [e2, splitWord_digit_skip d0 hd0 he, splitWord_digit_lower _ he hw1,
      splitWord_lower_run w2 hw2]
    have e1 : u0 ++ a :: ' ' :: d1 :: (d0 ++ e :: ' ' :: w1 :: w2) =
        (u0 ++ [a, ' ']) ++ ((d1 :: (d0 ++ [e])) ++ ' ' :: (w1 :: w2)) := by simp
    rw [e1, splitNumberLetter_no_digit _ _ hpre, splitNumberLetter_digits_space _ _ (by
      intro c hc
      simp only [List.mem_cons, List.mem_append, List.mem_singleton, List.not_mem_nil,
        or_false] at hc
      rcases hc with rfl | hc | rfl
      · exact hd1
      · exact hd0 c hc
      · exact he), splitNumberLetter_no_digit_all (w1 :: w2) (by
      intro c hc
      simp only [List.mem_cons] at hc
      rcases hc with rfl | hc
      · exact lower_not_digit hw1
      · exact hw2d c hc)]
    simp

/-- C6: lower case letters, then digits, then lower case letters give three
tokens, also when there is a single digit. -/
theorem Words_letter_digit_letter (T : UnicodeTables) (u d w : List Char)
    (hu : u ≠ []) (hul : ∀ c ∈ u, isLowerAZ c = true)
    (hd : d ≠ []) (hdd : ∀ c ∈ d, isDigit09 c = true)
    (hw : w ≠ []) (hwl : ∀ c ∈ w, isLowerAZ c = true) :
    Words T (u ++ d ++ w) = [u, d, w] := by
  obtain ⟨u0, a, rfl⟩ := exists_append_singleton u hu
  obtain ⟨d1, d2, rfl⟩ := List.exists_cons_of_ne_nil hd
  obtain ⟨w1, w2, rfl⟩ := List.exists_cons_of_ne_nil hw
  have hspace_l : ∀ c : Char, isLowerAZ c = true → IsSpace c = false :=
    fun c hc => alnumAZ09_not_space (lower_alnumAZ09 hc)
  have hspace_d : ∀ c : Char, isDigit09 c = true → IsSpace c = false :=
    fun c hc => alnumAZ09_not_space (digit_alnumAZ09 hc)
  rw [Words_of_passes T _ _ (passes_letter_digit_letter u0 a d1 d2 w1 w2
    (fun c hc => hul c (by simp [hc])) (hul a (by simp)) (hdd d1 (by simp))
    (fun c hc => hdd c (by simp [hc])) (hwl w1 (by simp)) (fun c hc => hwl c (by simp [hc])))]
  · rw [List.append_assoc (u0 ++ [a]), List.cons_append,
      Fields_word_space _ _ (fun c hc => hspace_l c (hul c hc)) hu,
      Fields_word_space _ _ (fun c hc => hspace_d c (hdd c hc)) hd,
      Fields_word _ (fun c hc => hspace_l c (hwl c hc)) hw]
  · intro c hc
    simp only [List.mem_append, List.mem_cons, List.mem_singleton, List.not_mem_nil,
      or_false] at hc
    rcases hc with ((hc | rfl) | rfl | hc) | rfl | hc
    · exact Or.inl (lower_alnumAZ09 (hul c (by simp [hc])))
    · exact Or.inl (lower_alnumAZ09 (hul c (by simp)))
    · exact Or.inr rfl
    · exact Or.inl (digit_alnumAZ09 (hdd c (by simpa using hc)))
    · exact Or.inr rfl
    · exact Or.inl (lower_alnumAZ09 (hwl c (by simpa using hc)))

/-- Witness for C6: `Words("abc123def") = ["abc", "123", "def"]`. -/
theorem Words_letter_digit_letter_witness :
    Words sampleTables "abc123def".toList = ["abc".toList, "123".toList, "def".toList] :=
  Words_letter_digit_letter sampleTables "abc".toList "123".toList "def".toList (by decide)
    (by decide) (by decide) (by decide) (by decide) (by decide)

/-! ## Machine integers -/

theorem isInt_iff (x : Int) :
    isInt x ↔ -9223372036854775808 ≤ x ∧ x < 9223372036854775808 := by
  simp only [isInt]
  norm_num

theorem isUint_iff (n : Nat) : isUint n ↔ n < 18446744073709551616 := by
  simp only [isUint]
  norm_num

theorem wrapInt_of_isInt (x : Int) (h : isInt x) : wrapInt x = x := by
  rw [isInt_iff] at h
  simp only [wrapInt]
  norm_num
  omega

theorem toUint_of_nonneg (x : Int) (h0 : 0 ≤ x) (h : x < 18446744073709551616) :
    toUint x = x.toNat := by
  simp only [toUint]
  norm_num
  omega

/-! ## `Substring` -/

/-- The offset `Substring` works with after its first `if`. -/
theorem Substring_offset (n : Nat) (offset : Int) (hs : (n : Int) < 9223372036854775808)
    (ho : isInt offset) :
    (if offset < 0 then
      (if wrapInt ((n : Int) + offset) < 0 then 0 else wrapInt ((n : Int) + offset))
    else offset) = (if offset ≥ 0 then offset else max 0 ((n : Int) + offset)) := by
  rw [isInt_iff] at ho
  by_cases hneg : offset < 0
  · have hw : wrapInt ((n : Int) + offset) = (n : Int) + offset :=
      wrapInt_of_isInt _ ((isInt_iff _).2 (by omega))
    have hneg2 : ¬ (offset ≥ 0) := by omega
    simp only [hneg, hneg2, hw, if_true, if_false]
    by_cases h1 : (n : Int) + offset < 0
    · simp only [h1, if_true]; omega
    · simp only [h1, if_false]; omega
  · have hneg2 : offset ≥ 0 := by omega
    simp only [hneg, hneg2, if_true, if_false]

/-- The window `Substring` cuts once the offset `o` is resolved, `0 ≤ o < size`. -/
theorem Substring_slice (s : List Char) (o : Int) (length : Nat)
    (hs : (s.length : Int) < 9223372036854775808) (h0 : 0 ≤ o) (h1 : o < s.length)
    (hl : isUint length) :
    slice s o (wrapInt (o + toInt
      (if length > toUint ((toUint (s.length : Int) : Int) - (toUint o : Int)) then
        toUint (wrapInt ((s.length : Int) - o)) else length))) =
      some ((s.drop o.toNat).take (min length (s.length - o.toNat))) := by
  rw [isUint_iff] at hl
  have e1 : toUint (s.length : Int) = s.length := by
    rw [toUint_of_nonneg _ (by omega) (by omega)]; omega
  have e2 : toUint o = o.toNat := toUint_of_nonneg _ h0 (by omega)
  have e3 : toUint (((s.length : Nat) : Int) - ((o.toNat : Nat) : Int)) = s.length - o.toNat := by
    rw [toUint_of_nonneg _ (by omega) (by omega)]; omega
  have e4 : wrapInt ((s.length : Int) - o) = (s.length : Int) - o :=
    wrapInt_of_isInt _ ((isInt_iff _).2 (by omega))
  have e5 : toUint ((s.length : Int) - o) = s.length - o.toNat := by
    rw [toUint_of_nonneg _ (by omega) (by omega)]; omega
  rw [e1, e2, e3, e4, e5]
  clear e1 e2 e3 e4 e5
  have e6 : (if length > s.length - o.toNat then s.length - o.toNat else length) =
      min length (s.length - o.toNat) := by
    by_cases h : length > s.length - o.toNat
    · simp only [h, if_true]; omega
    · simp only [h, if_false]; omega
  rw [e6]
  clear e6
  generalize hm : min length (s.length - o.toNat) = m
  have hm2 : (m : Int) ≤ (s.length : Int) - o := by omega
  clear hm
  have e7 : toInt m = (m : Int) := wrapInt_of_isInt _ ((isInt_iff _).2 (by omega))
  have e8 : wrapInt (o + (m : Int)) = o + (m : Int) :=
    wrapInt_of_isInt _ ((isInt_iff _).2 (by omega))
  rw [e7, e8]
  simp only [slice]
  have e9 : 0 ≤ o ∧ o ≤ o + (m : Int) ∧ o + (m : Int) ≤ (s.length : Int) := by omega
  rw [if_pos e9]
  have e10 : (o + (m : Int)).toNat - o.toNat = m := by omega
  rw [e10]

/-- C7 as stated fails on a string that holds a NUL: `Substring` deletes it
from the window. -/
theorem Substring_window_counterexample :
    Substring ['a', Char.ofNat 0, 'b'] 0 3 = some ['a', 'b'] ∧
    runeWindow ['a', Char.ofNat 0, 'b'] 0 3 = ['a', Char.ofNat 0, 'b'] ∧
    Substring ['a', Char.ofNat 0, 'b'] 0 3 ≠ some (runeWindow ['a', Char.ofNat 0, 'b'] 0 3) := by
  decide

/-- C7, amended: for a string of `size` runes, an `int` offset and a `uint`
length, `Substring` returns the rune window of the specification with every
NUL rune removed: empty when the resolved offset `o` is at least `size`, else
the runes at `[o, o + min(length, size - o))` other than U+0000, in order. -/
theorem Substring_eq_window (s : List Char) (offset : Int) (length : Nat)
    (hs : (s.length : Int) < (2 : Int) ^ 63) (ho : isInt offset) (hl : isUint length) :
    Substring s offset length = some (removeNul (runeWindow s offset length)) := by
  have hs2 : (s.length : Int) < 9223372036854775808 := by
    have h := hs
    norm_num at h
    omega
  simp only [Substring, runeWindow]
  rw [Substring_offset s.length offset hs2 ho]
  have hb : 0 ≤ (if offset ≥ 0 then offset else max 0 ((s.length : Int) + offset)) := by
    split_ifs <;> omega
  generalize (if offset ≥ 0 then offset else max 0 ((s.length : Int) + offset)) = o at hb ⊢
  by_cases h : o ≥ (s.length : Int)
  · simp only [h, if_true, GetZeroValue, removeNul, List.filter_nil]
  · simp only [h, if_false]
    rw [Substring_slice s o length hs2 hb (by omega) hl]
    rfl

/-- Witness for C7: `Substring("hello", -3, 2) = "ll"` and
`Substring("hello", 10, 2) = ""`. -/
theorem Substring_eq_window_witness :
    Substring "hello".toList (-3) 2 = some (removeNul (runeWindow "hello".toList (-3) 2)) ∧
    removeNul (runeWindow "hello".toList (-3) 2) = "ll".toList ∧
    Substring "hello".toList 10 2 = some [] :=
  ⟨Substring_eq_window "hello".toList (-3) 2 (by decide) (by norm_num [isInt])
    (by norm_num [isUint]), by decide, by decide⟩

/-! ## `unicode/utf8` -/

theorem runeIsSpace_RuneError : runeIsSpace RuneError = false := by decide

theorem getD_take (t : List Nat) (k i : Nat) (h : i < k) :
    (t.take k).getD i 0 = t.getD i 0 := by
  simp only [List.getD_eq_getElem?_getD, List.getElem?_take, h, if_true]

/-- The first rune of a prefix is the first rune of the string, or `RuneError`
when the prefix cuts its encoding. -/
theorem DecodeRuneInString_take (s : List Nat) (j : Nat) (hj : 1 ≤ j) :
    (DecodeRuneInString (s.take j)).1 = (DecodeRuneInString s).1 ∨
      (DecodeRuneInString (s.take j)).1 = RuneError := by
  rcases s with _ | ⟨s0, t⟩
  · left; simp
  · obtain ⟨k, rfl⟩ : ∃ k, j = k + 1 := ⟨j - 1, by omega⟩
    simp only [List.take_succ_cons]
    by_cases h80 : s0 < 0x80
    · left; simp only [DecodeRuneInString, h80, if_true]
    · by_cases hinv : s0 < 0xC2 ∨ 0xF4 < s0
      · left; simp only [DecodeRuneInString, h80, hinv, if_true, if_false]
      · by_cases hl1 : (s0 :: t.take k).length < leadSize s0
        · right; simp only [DecodeRuneInString, h80, hinv, hl1, if_true, if_false]
        · left
          have hlen : (s0 :: t.take k).length ≤ (s0 :: t).length := by
            simp only [List.length_cons, List.length_take]; omega
          have hl2 : ¬ (s0 :: t).length < leadSize s0 := by omega
          have hk : leadSize s0 ≤ k + 1 := by
            simp only [List.length_cons, List.length_take] at hl1; omega
          simp only [DecodeRuneInString, h80, hinv, hl1, hl2, if_false]
          by_cases h2 : s0 < 0xE0
          · have hsz : leadSize s0 = 2 := by simp only [leadSize, h2, if_true]
            rw [hsz] at hk ⊢
            simp only [Nat.le_refl, if_true, getD_take t k 0 (by omega)]
          · by_cases h3 : s0 < 0xF0
            · have hsz : leadSize s0 = 3 := by simp only [leadSize, h2, h3, if_true, if_false]
              rw [hsz] at hk ⊢
              simp only [Nat.le_refl, if_true, getD_take t k 0 (by omega),
                getD_take t k 1 (by omega)]
            · have hsz : leadSize s0 = 4 := by simp only [leadSize, h2, h3, if_false]
              rw [hsz] at hk ⊢
              simp only [getD_take t k 0 (by omega), getD_take t k 1 (by omega),
                getD_take t k 2 (by omega)]

theorem DecodeRuneInString_size_pos (s : List Nat) (h : s ≠ []) :
    1 ≤ (DecodeRuneInString s).2 := by
  rcases s with _ | ⟨s0, t⟩
  · exact absurd rfl h
  · simp only [DecodeRuneInString]
    split_ifs <;> simp

/-! ## `strings.TrimSpace` -/

theorem trimLeftLoop_eq_drop (f : Nat → Bool) : ∀ (fuel : Nat) (s : List Nat),
    ∃ k, trimLeftLoop f fuel s = s.drop k := by
  intro fuel
  induction fuel with
  | zero => intro s; exact ⟨0, rfl⟩
  | succ n ih =>
    intro s
    rcases s with _ | ⟨a, t⟩
    · exact ⟨0, rfl⟩
    · simp only [trimLeftLoop]
      split_ifs
      · obtain ⟨k, hk⟩ := ih ((a :: t).drop (DecodeRuneInString (a :: t)).2)
        exact ⟨(DecodeRuneInString (a :: t)).2 + k, by rw [hk, List.drop_drop]⟩
      · exact ⟨0, rfl⟩

theorem trimRightLoop_eq_take (f : Nat → Bool) : ∀ (fuel : Nat) (s : List Nat),
    ∃ k, trimRightLoop f fuel s = s.take k := by
  intro fuel
  induction fuel with
  | zero => intro s; exact ⟨s.length, by simp [trimRightLoop]⟩
  | succ n ih =>
    intro s
    rcases s with _ | ⟨a, t⟩
    · exact ⟨0, rfl⟩
    · simp only [trimRightLoop]
      split_ifs
      · obtain ⟨k, hk⟩ := ih ((a :: t).take ((a :: t).length - (DecodeLastRuneInString (a :: t)).2))
        exact ⟨min k ((a :: t).length - (DecodeLastRuneInString (a :: t)).2), by
          rw [hk, List.take_take]⟩
      · exact ⟨(a :: t).length, by simp⟩

/-- The first rune left by `TrimLeftFunc`, when there is one, does not satisfy
the predicate. -/
theorem trimLeftLoop_head (f : Nat → Bool) : ∀ (fuel : Nat) (s : List Nat), s.length ≤ fuel →
    trimLeftLoop f fuel s = [] ∨ f (DecodeRuneInString (trimLeftLoop f fuel s)).1 = false := by
  intro fuel
  induction fuel with
  | zero =>
    intro s hs
    left
    have : s = [] := List.length_eq_zero.1 (by omega)
    subst this
    rfl
  | succ n ih =>
    intro s hs
    rcases s with _ | ⟨a, t⟩
    · left; rfl
    · simp only [trimLeftLoop]
      by_cases hf : f (DecodeRuneInString (a :: t)).1 = true
      · simp only [hf, if_true]
        apply ih
        have := DecodeRuneInString_size_pos (a :: t) (by simp)
        simp only [List.length_drop, List.length_cons] at hs ⊢
        omega
      · simp only [hf, if_false]
        right
        simpa using hf

theorem TrimLeftFunc_head (f : Nat → Bool) (s : List Nat) :
    TrimLeftFunc s f = [] ∨ f (DecodeRuneInString (TrimLeftFunc s f)).1 = false :=
  trimLeftLoop_head f s.length s (Nat.le_refl _)

/-- A string whose first rune does not satisfy the predicate is left as it is
by `TrimLeftFunc`. -/
theorem TrimLeftFunc_of_head (f : Nat → Bool) (p : List Nat)
    (h : p = [] ∨ f (DecodeRuneInString p).1 = false) : TrimLeftFunc p f = p := by
  rcases p with _ | ⟨a, t⟩
  · rfl
  · rcases h with h | h
    · simp at h
    · simp only [TrimLeftFunc, List.length_cons, trimLeftLoop, h, Bool.false_eq_true, if_false]

theorem TrimSpace_eq_take (s : List Nat) :
    ∃ k, TrimSpace s = (TrimLeftFunc s runeIsSpace).take k :=
  trimRightLoop_eq_take runeIsSpace _ _

theorem TrimSpace_length_le (s : List Nat) : (TrimSpace s).length ≤ s.length := by
  obtain ⟨k, hk⟩ := TrimSpace_eq_take s
  obtain ⟨j, hj⟩ := trimLeftLoop_eq_drop runeIsSpace s.length s
  rw [hk, TrimLeftFunc, hj]
  simp only [List.length_take, List.length_drop]
  omega

/-- Nothing is removed at the front of a prefix of a trimmed string. -/
theorem TrimLeftFunc_take_TrimSpace (s : List Nat) (j : Nat) :
    TrimLeftFunc ((TrimSpace s).take j) runeIsSpace = (TrimSpace s).take j := by
  apply TrimLeftFunc_of_head
  obtain ⟨k, hk⟩ := TrimSpace_eq_take s
  rw [hk, List.take_take]
  by_cases h0 : min j k = 0
  · left; rw [h0]; rfl
  · rcases TrimLeftFunc_head runeIsSpace s with h | h
    · left; rw [h]; simp
    · right
      rcases DecodeRuneInString_take (TrimLeftFunc s runeIsSpace) (min j k) (by omega) with h1 | h1
      · rw [h1]; exact h
      · rw [h1]; exact runeIsSpace_RuneError

theorem TrimSpace_take (s : List Nat) (j : Nat) :
    TrimSpace ((TrimSpace s).take j) = TrimRightFunc ((TrimSpace s).take j) runeIsSpace := by
  rw [TrimSpace, TrimFunc, TrimLeftFunc_take_TrimSpace]

/-! ## `Ellipsis` -/

theorem slice_zero (s : List Nat) (hi : Int) (h0 : 0 ≤ hi) (h1 : hi ≤ (s.length : Int)) :
    slice s 0 hi = some (s.take hi.toNat) := by
  simp only [slice]
  rw [if_pos ⟨le_refl _, h0, h1⟩]
  simp

/-- C8: the byte length of `Ellipsis(s, n)` never exceeds `n`, except when
`n < 3` and the trimmed string is longer than `n`, where the result is exactly
`"..."`. -/
theorem Ellipsis_length (s : List Nat) (n : Int) :
    ∃ r, Ellipsis s n = some r ∧
      (if n < 3 ∧ ((TrimSpace s).length : Int) > n then r = asciiBytes "..."
       else (r.length : Int) ≤ n) := by
  by_cases hgt : ((TrimSpace s).length : Int) > n
  · by_cases h3 : n < 3
    · refine ⟨asciiBytes "...", ?_, ?_⟩
      · simp only [Ellipsis, hgt, if_true, h3, or_true]
      · rw [if_pos ⟨h3, hgt⟩]
    · have hlen3 : ¬ ((TrimSpace s).length : Int) < 3 := by omega
      refine ⟨TrimSpace ((TrimSpace s).take (n - 3).toNat) ++ asciiBytes "...", ?_, ?_⟩
      · simp only [Ellipsis, hgt, if_true, h3, hlen3, or_self, if_false]
        rw [slice_zero _ _ (by omega) (by omega)]
        rfl
      · rw [if_neg (fun h => h3 h.1)]
        have h1 := TrimSpace_length_le ((TrimSpace s).take (n - 3).toNat)
        have h2 : (asciiBytes "...").length = 3 := rfl
        simp only [List.length_append, List.length_take, h2] at h1 ⊢
        omega
  · refine ⟨TrimSpace s, ?_, ?_⟩
    · simp only [Ellipsis, hgt, if_false]
    · rw [if_neg (fun h => hgt h.2)]
      omega

/-- C9: when `n ≥ 3` and the trimmed string is longer than `n` bytes,
`Ellipsis(s, n)` is the first `n - 3` bytes of the trimmed string with
trailing white space removed, nothing removed at the front, followed by
`"..."`. -/
theorem Ellipsis_truncated (s : List Nat) (n : Int) (hn : 3 ≤ n)
    (hlen : ((TrimSpace s).length : Int) > n) :
    Ellipsis s n =
      some (TrimRightFunc ((TrimSpace s).take (n - 3).toNat) runeIsSpace ++ asciiBytes "...") := by
  have h3 : ¬ n < 3 := by omega
  have hlen3 : ¬ ((TrimSpace s).length : Int) < 3 := by omega
  simp only [Ellipsis, hlen, if_true, h3, hlen3, or_self, if_false]
  rw [slice_zero _ _ (by omega) (by omega)]
  simp only [Option.map_some', TrimSpace_take]

/-- Witness for C9: `Ellipsis("hello world", 5) = "he..."`. -/
theorem Ellipsis_truncated_witness :
    Ellipsis (asciiBytes "hello world") 5 =
      some (TrimRightFunc ((TrimSpace (asciiBytes "hello world")).take ((5 : Int) - 3).toNat)
        runeIsSpace ++ asciiBytes "...") ∧
    TrimRightFunc ((TrimSpace (asciiBytes "hello world")).take ((5 : Int) - 3).toNat)
        runeIsSpace ++ asciiBytes "..." = asciiBytes "he..." :=
  ⟨Ellipsis_truncated (asciiBytes "hello world") 5 (by decide) (by decide), by decide⟩

/-! ## Case converters -/

theorem toNat_ofNat_ascii (n : Nat) (h : n < 256) : (Char.ofNat n).toNat = n := by
  have hv : n.isValidChar := Or.inl (by omega)
  simp only [Char.ofNat, hv, dif_pos, Char.ofNatAux, Char.toNat]
  simp only [UInt32.toNat]
  simp

/-- On ASCII runes lower-then-upper is upper, and lower is idempotent. -/
theorem ascii_case_stable (T : UnicodeTables) (c : Char) (h : c.toNat ≤ MaxASCII) :
    ToUpperRune T (ToLowerRune T c) = ToUpperRune T c ∧
      ToLowerRune T (ToLowerRune T c) = ToLowerRune T c := by
  simp only [MaxASCII] at h
  by_cases hu : isUpperAZ c = true
  · have hu2 := hu
    simp only [isUpperAZ, Bool.and_eq_true, decide_eq_true_eq] at hu2
    have hd : (Char.ofNat (c.toNat + 32)).toNat = c.toNat + 32 :=
      toNat_ofNat_ascii _ (by omega)
    have hl : ToLowerRune T c = Char.ofNat (c.toNat + 32) := by
      simp only [ToLowerRune, MaxASCII, h, if_true, hu]
    have hdl : isLowerAZ (Char.ofNat (c.toNat + 32)) = true := by
      simp only [isLowerAZ, hd, Bool.and_eq_true, decide_eq_true_eq]; omega
    have hdu : isUpperAZ (Char.ofNat (c.toNat + 32)) = false := lower_not_upper hdl
    have hda : (Char.ofNat (c.toNat + 32)).toNat ≤ MaxASCII := by
      simp only [MaxASCII, hd]; omega
    rw [hl]
    constructor
    · have hda2 : c.toNat + 32 ≤ 127 := by omega
      simp only [ToUpperRune, hdl, hd, Nat.add_sub_cancel, Char.ofNat_toNat,
        MaxASCII, h, hda2, upper_not_lower hu, Bool.false_eq_true, if_true, if_false]
    · simp only [ToLowerRune, hda, if_true, hdu, Bool.false_eq_true, if_false]
  · have hl : ToLowerRune T c = c := by
      simp only [ToLowerRune, MaxASCII, h, if_true, hu, Bool.false_eq_true, if_false]
    rw [hl, hl]
    exact ⟨rfl, rfl⟩

theorem Join_nil (l : List (List Char)) : Join l [] = l.flatten := by
  induction l with
  | nil => rfl
  | cons a t ih =>
    rcases t with _ | ⟨b, t⟩
    · simp [Join]
    · rw [Join, ih]
      simp

theorem camelItems_pos (T : UnicodeTables) (l : List (List Char)) : ∀ i : Nat, 0 < i →
    camelItems T i l = l.map (fun t => Capitalize T (ToLower T t)) := by
  induction l with
  | nil => intro i _; rfl
  | cons a t ih =>
    intro i hi
    simp only [camelItems, hi, if_true, List.map_cons]
    rw [ih (i + 1) (by omega)]

/-- Capitalizing a lowercased token is capitalizing the token, when the case
mappings agree on its runes. -/
theorem Capitalize_ToLower (T : UnicodeTables) (t : List Char)
    (h : ∀ c ∈ t, ToUpperRune T (ToLowerRune T c) = ToUpperRune T c ∧
      ToLowerRune T (ToLowerRune T c) = ToLowerRune T c) :
    Capitalize T (ToLower T t) = Capitalize T t := by
  rcases t with _ | ⟨c, cs⟩
  · rfl
  · simp only [Capitalize, ToLower, List.map_cons, titleCase, List.map_map]
    rw [(h c (by simp)).1]
    congr 1
    apply List.map_congr_left
    intro d hd
    exact (h d (List.mem_cons_of_mem _ hd)).2

/-- C10 as stated fails on a token that changes under lower-then-upper: with
U+212A KELVIN SIGN as second token, `PascalCase` keeps the sign and `CamelCase`
turns it into the ASCII letter `K`. -/
theorem Pascal_Camel_counterexample :
    Words sampleTables ['a', ' ', Char.ofNat 0x212A] = [['a'], [Char.ofNat 0x212A]] ∧
    PascalCase sampleTables ['a', ' ', Char.ofNat 0x212A] = ['A', Char.ofNat 0x212A] ∧
    CamelCase sampleTables ['a', ' ', Char.ofNat 0x212A] = ['a', 'K'] ∧
    ¬ (PascalCase sampleTables ['a', ' ', Char.ofNat 0x212A] =
          Capitalize sampleTables ['a'] ++
            ([[Char.ofNat 0x212A]].map (Capitalize sampleTables)).flatten ∧
        CamelCase sampleTables ['a', ' ', Char.ofNat 0x212A] =
          ToLower sampleTables ['a'] ++
            ([[Char.ofNat 0x212A]].map (Capitalize sampleTables)).flatten) := by
  decide

/-- C10, amended: when `Words(s) = t1 :: rest` and every rune `c` of the tokens
of `rest` satisfies `upper(lower(c)) = upper(c)` and
`lower(lower(c)) = lower(c)`, as every ASCII rune does, `PascalCase(s)` is
`Capitalize(t1) ++ R` and `CamelCase(s)` is `lowercase(t1) ++ R` for the same
`R`, the concatenation of `Capitalize` applied to each token of `rest`. -/
theorem Pascal_Camel_first_token (T : UnicodeTables) (s t1 : List Char)
    (rest : List (List Char)) (hw : Words T s = t1 :: rest)
    (hcase : ∀ t ∈ rest, ∀ c ∈ t, ToUpperRune T (ToLowerRune T c) = ToUpperRune T c ∧
      ToLowerRune T (ToLowerRune T c) = ToLowerRune T c) :
    PascalCase T s = Capitalize T t1 ++ (rest.map (Capitalize T)).flatten ∧
    CamelCase T s = ToLower T t1 ++ (rest.map (Capitalize T)).flatten := by
  constructor
  · simp only [PascalCase, hw, Join_nil, List.map_cons, List.flatten_cons]
  · simp only [CamelCase, hw, Join_nil, camelItems, Nat.lt_irrefl, if_false,
      List.flatten_cons]
    rw [camelItems_pos T rest 1 (by omega)]
    congr 2
    apply List.map_congr_left
    intro t ht
    exact Capitalize_ToLower T t (hcase t ht)

/-- Witness for C10: `PascalCase("Hello big World") = "HelloBigWorld"` and
`CamelCase("Hello big World") = "helloBigWorld"`. -/
theorem Pascal_Camel_first_token_witness :
    (PascalCase sampleTables "Hello big World".toList =
        Capitalize sampleTables "Hello".toList ++
          (["big".toList, "World".toList].map (Capitalize sampleTables)).flatten ∧
      CamelCase sampleTables "Hello big World".toList =
        ToLower sampleTables "Hello".toList ++
          (["big".toList, "World".toList].map (Capitalize sampleTables)).flatten) ∧
    PascalCase sampleTables "Hello big World".toList = "HelloBigWorld".toList ∧
    CamelCase sampleTables "Hello big World".toList = "helloBigWorld".toList :=
  ⟨Pascal_Camel_first_token sampleTables "Hello big World".toList "Hello".toList
    ["big".toList, "World".toList] (by decide) (by decide), by decide, by decide⟩

/-! ## Tokens of `Words` and the runes of the input -/

/-- The tokens of `Words s`, concatenated, are the letters and digits of `s`. -/
theorem Words_flatten_filter (T : UnicodeTables) (s : List Char) :
    (Words T s).flatten = s.filter (fun c => IsLetter T c || IsDigit T c) := by
  simp only [Words, Fields, fieldsLoop_flatten, List.nil_append, ReplaceAllString]
  rw [filter_map_alnum,
    filter_replaceLoop _ _ _ (splitNumberLetterReg_filter _ (alnum_space T)),
    filter_replaceLoop _ _ _ (splitWordReg_filter _ (alnum_space T))]

theorem Words_token_ne_nil (T : UnicodeTables) (s t : List Char) (ht : t ∈ Words T s) :
    t ≠ [] := by
  simp only [Words, Fields] at ht
  exact (fieldsLoop_mem _ [] (by simp) t ht).1

/-- Every rune of a token of `Words s` is a rune of `s`. -/
theorem Words_token_mem (T : UnicodeTables) (s t : List Char) (ht : t ∈ Words T s) (c : Char)
    (hc : c ∈ t) : c ∈ s := by
  have h1 : c ∈ (Words T s).flatten := List.mem_flatten.2 ⟨t, ht, hc⟩
  rw [Words_flatten_filter] at h1
  exact (List.mem_filter.1 h1).1

theorem mem_Join (sep : List Char) (c : Char) : ∀ l : List (List Char),
    c ∈ Join l sep → c ∈ sep ∨ ∃ t ∈ l, c ∈ t := by
  intro l
  induction l with
  | nil => intro h; simp [Join] at h
  | cons a l ih =>
    intro h
    rcases l with _ | ⟨b, l⟩
    · simp only [Join] at h
      exact Or.inr ⟨a, by simp, h⟩
    · simp only [Join, List.mem_append] at h
      rcases h with (h | h) | h
      · exact Or.inr ⟨a, by simp, h⟩
      · exact Or.inl h
      · rcases ih h with h2 | ⟨t, ht, hct⟩
        · exact Or.inl h2
        · exact Or.inr ⟨t, List.mem_cons_of_mem _ ht, hct⟩

/-! ## `KebabCase` -/

/-- An ASCII rune, lowercased, is not an upper case letter. -/
theorem ascii_ToLower_not_upper (T : UnicodeTables) (c : Char) (h : c.toNat ≤ MaxASCII) :
    IsUpper T (ToLowerRune T c) = false := by
  simp only [MaxASCII] at h
  by_cases hu : isUpperAZ c = true
  · have hu2 := hu
    simp only [isUpperAZ, Bool.and_eq_true, decide_eq_true_eq] at hu2
    have hd : (Char.ofNat (c.toNat + 32)).toNat = c.toNat + 32 :=
      toNat_ofNat_ascii _ (by omega)
    simp only [ToLowerRune, MaxASCII, h, if_true, hu, IsUpper, hd, MaxLatin1, latin1Upper]
    have h1 : c.toNat + 32 ≤ 255 := by omega
    simp only [h1, if_true]
    simp
    omega
  · have hl : ToLowerRune T c = c := by
      simp only [ToLowerRune, MaxASCII, h, if_true, hu, Bool.false_eq_true, if_false]
    have h1 : c.toNat ≤ 255 := by omega
    simp only [isUpperAZ, Bool.and_eq_true, decide_eq_true_eq] at hu
    rw [hl]
    simp only [IsUpper, MaxLatin1, h1, if_true, latin1Upper]
    simp
    omega

/-- C11 as stated fails on an upper case letter without lower case mapping:
`KebabCase` returns U+1D400 MATHEMATICAL BOLD CAPITAL A unchanged. -/
theorem KebabCase_upper_counterexample :
    KebabCase sampleTables [Char.ofNat 0x1D400] = [Char.ofNat 0x1D400] ∧
    IsUpper sampleTables (Char.ofNat 0x1D400) = true ∧
    (KebabCase sampleTables [Char.ofNat 0x1D400]).any (IsUpper sampleTables) = true := by
  decide

/-- C11, amended: when no rune of `s` lowercases to an upper case letter, as is
the case of every ASCII rune, no rune of `KebabCase(s)` is an upper case
letter. -/
theorem KebabCase_no_upper (T : UnicodeTables) (s : List Char)
    (h : ∀ c ∈ s, IsUpper T (ToLowerRune T c) = false) :
    ∀ c ∈ KebabCase T s, IsUpper T c = false := by
  intro c hc
  simp only [KebabCase] at hc
  rcases mem_Join _ c _ hc with h1 | ⟨t, ht, hct⟩
  · simp only [List.mem_singleton] at h1
    subst h1
    rfl
  · obtain ⟨t0, ht0, rfl⟩ := List.mem_map.1 ht
    simp only [ToLower] at hct
    obtain ⟨c0, hc0, rfl⟩ := List.mem_map.1 hct
    exact h c0 (Words_token_mem T s t0 ht0 c0 hc0)

/-- Witness for C11: `KebabCase("Hello World") = "hello-world"`. -/
theorem KebabCase_no_upper_witness :
    KebabCase sampleTables "Hello World".toList = "hello-world".toList ∧
    IsUpper sampleTables 'w' = false :=
  ⟨by decide, KebabCase_no_upper sampleTables "Hello World".toList (by decide) 'w' (by decide)⟩

/-! ## Zero tokens -/

/-- C12: a string without letter and without digit, the empty string among
them, has no token, and `PascalCase`, `CamelCase` and `KebabCase` return the
empty string. -/
theorem zero_tokens (T : UnicodeTables) (s : List Char)
    (h : ∀ c ∈ s, IsLetter T c = false ∧ IsDigit T c = false) :
    Words T s = [] ∧ PascalCase T s = [] ∧ CamelCase T s = [] ∧ KebabCase T s = [] := by
  have hw : Words T s = [] := by
    rcases hW : Words T s with _ | ⟨t, ts⟩
    · rfl
    · exfalso
      have ht : t ∈ Words T s := by rw [hW]; simp
      obtain ⟨c, cs, rfl⟩ := List.exists_cons_of_ne_nil (Words_token_ne_nil T s _ ht)
      have hc : c ∈ (Words T s).flatten := List.mem_flatten.2 ⟨_, ht, by simp⟩
      rw [Words_flatten_filter] at hc
      obtain ⟨hcs, hcf⟩ := List.mem_filter.1 hc
      simp [(h c hcs).1, (h c hcs).2] at hcf
  simp only [PascalCase, CamelCase, KebabCase, hw, List.map_nil, camelItems, Join, and_self]

/-- Witness for C12: the empty string and a string of punctuation and spaces. -/
theorem zero_tokens_witness :
    (Words sampleTables [] = [] ∧ PascalCase sampleTables [] = [] ∧
      CamelCase sampleTables [] = [] ∧ KebabCase sampleTables [] = []) ∧
    (Words sampleTables " _-! ".toList = [] ∧ PascalCase sampleTables " _-! ".toList = [] ∧
      CamelCase sampleTables " _-! ".toList = [] ∧ KebabCase sampleTables " _-! ".toList = []) :=
  ⟨zero_tokens sampleTables [] (by decide), zero_tokens sampleTables " _-! ".toList (by decide)⟩

/-! ## `PascalCase` on lower case words -/

theorem splitWord_lower_space (l : List Char) (h : ∀ c ∈ l, isLowerAZ c = true ∨ c = ' ') :
    ReplaceAllString splitWordReg splitWordTemplate l = l := by
  induction l with
  | nil => exact ReplaceAllString_nil _ _
  | cons a t ih =>
    have hnone : splitWordReg (a :: t) = none := by
      rcases t with _ | ⟨b, t⟩
      · simp [splitWordReg]
      · have ha : isDigit09 a = false ∧ isUpperAZ a = false := by
          rcases h a (by simp) with ha | ha
          · exact ⟨lower_not_digit ha, lower_not_upper ha⟩
          · subst ha; exact ⟨by decide, by decide⟩
        have hb : isDigit09 b = false ∧ isUpperAZ b = false := by
          rcases h b (by simp) with hb | hb
          · exact ⟨lower_not_digit hb, lower_not_upper hb⟩
          · subst hb; exact ⟨by decide, by decide⟩
        rcases t with _ | ⟨c, t⟩ <;>
          simp [splitWordReg, isUpperOrDigit, ha.1, ha.2, hb.1, hb.2]
    rw [ReplaceAllString_none _ _ a t hnone, ih (fun c hc => h c (List.mem_cons_of_mem _ hc))]

theorem mem_Join_space (ws : List (List Char)) (hw : ∀ w ∈ ws, ∀ c ∈ w, isLowerAZ c = true) :
    ∀ c ∈ Join ws [' '], isLowerAZ c = true ∨ c = ' ' := by
  intro c hc
  rcases mem_Join _ c _ hc with h | ⟨t, ht, hct⟩
  · exact Or.inr (by simpa using h)
  · exact Or.inl (hw t ht c hct)

theorem Fields_Join_space (ws : List (List Char))
    (hw : ∀ w ∈ ws, w ≠ [] ∧ ∀ c ∈ w, IsSpace c = false) : Fields (Join ws [' ']) = ws := by
  induction ws with
  | nil => rfl
  | cons a ws ih =>
    rcases ws with _ | ⟨b, ws⟩
    · exact Fields_word a (hw a (by simp)).2 (hw a (by simp)).1
    · have h1 : Join (a :: b :: ws) [' '] = a ++ ' ' :: Join (b :: ws) [' '] := by
        simp [Join]
      rw [h1, Fields_word_space a _ (hw a (by simp)).2 (hw a (by simp)).1,
        ih (fun w hw2 => hw w (List.mem_cons_of_mem _ hw2))]

/-- Lower case words joined by single spaces are the tokens of the joined
string. -/
theorem Words_Join_space (T : UnicodeTables) (ws : List (List Char))
    (hw : ∀ w ∈ ws, w ≠ [] ∧ ∀ c ∈ w, isLowerAZ c = true) : Words T (Join ws [' ']) = ws := by
  have hall := mem_Join_space ws (fun w h => (hw w h).2)
  have h1 := splitWord_lower_space _ hall
  have h2 : ReplaceAllString splitNumberLetterReg splitNumberLetterTemplate (Join ws [' ']) =
      Join ws [' '] := by
    apply splitNumberLetter_no_digit_all
    intro c hc
    rcases hall c hc with h | h
    · exact lower_not_digit h
    · subst h; decide
  rw [Words_of_passes T _ (Join ws [' ']) (by rw [h1, h2])]
  · exact Fields_Join_space ws (fun w h =>
      ⟨(hw w h).1, fun c hc => alnumAZ09_not_space (lower_alnumAZ09 ((hw w h).2 c hc))⟩)
  · intro c hc
    rcases hall c hc with h | h
    · exact Or.inl (lower_alnumAZ09 h)
    · exact Or.inr h

theorem ToLowerRune_lower (T : UnicodeTables) {c : Char} (h : isLowerAZ c = true) :
    ToLowerRune T c = c := by
  have hu := lower_not_upper h
  simp only [isLowerAZ, Bool.and_eq_true, decide_eq_true_eq] at h
  have h1 : c.toNat ≤ MaxASCII := by simp only [MaxASCII]; omega
  simp only [ToLowerRune, h1, if_true, hu, Bool.false_eq_true, if_false]

theorem ToUpperRune_lower (T : UnicodeTables) {c : Char} (h : isLowerAZ c = true) :
    ToUpperRune T c = Char.ofNat (c.toNat - 32) := by
  have h2 := h
  simp only [isLowerAZ, Bool.and_eq_true, decide_eq_true_eq] at h2
  have h1 : c.toNat ≤ MaxASCII := by simp only [MaxASCII]; omega
  simp only [ToUpperRune, h1, if_true, h]

theorem Capitalize_lower (T : UnicodeTables) (w : List Char) (h : ∀ c ∈ w, isLowerAZ c = true) :
    Capitalize T w = upperFirst w := by
  rcases w with _ | ⟨c, cs⟩
  · rfl
  · simp only [Capitalize, titleCase, upperFirst, ToUpperRune_lower T (h c (by simp))]
    congr 1
    rw [List.map_congr_left (fun d hd => ToLowerRune_lower T (h d (List.mem_cons_of_mem _ hd)))]
    simp

/-- C13: `PascalCase` of lower case ASCII words joined by single spaces is the
concatenation of the words, each with its first letter uppercased and the rest
unchanged. -/
theorem PascalCase_lower_words (T : UnicodeTables) (ws : List (List Char))
    (hw : ∀ w ∈ ws, w ≠ [] ∧ ∀ c ∈ w, isLowerAZ c = true) :
    PascalCase T (Join ws [' ']) = (ws.map upperFirst).flatten := by
  simp only [PascalCase, Words_Join_space T ws hw, Join_nil]
  rw [List.map_congr_left (fun w h => Capitalize_lower T w (hw w h).2)]

/-- Witness for C13: `PascalCase("hello world") = "HelloWorld"`. -/
theorem PascalCase_lower_words_witness :
    Join ["hello".toList, "world".toList] [' '] = "hello world".toList ∧
    PascalCase sampleTables (Join ["hello".toList, "world".toList] [' ']) =
      (["hello".toList, "world".toList].map upperFirst).flatten ∧
    (["hello".toList, "world".toList].map upperFirst).flatten = "HelloWorld".toList :=
  ⟨by decide, PascalCase_lower_words sampleTables ["hello".toList, "world".toList] (by decide),
    by decide⟩

/-! ## `Substring`: offsets, bounds and length -/

/-- For machine integers `Substring` returns the rune window without its NUL
runes. -/
theorem Substring_window (s : List Char) (offset : Int) (length : Nat)
    (hs : (s.length : Int) < (2 : Int) ^ 63) (ho : isInt offset) (hl : isUint length) :
    Substring s offset length = some (removeNul (runeWindow s offset length)) := by
  have hs2 : (s.length : Int) < 9223372036854775808 := by
    have h := hs
    norm_num at h
    omega
  simp only [Substring, runeWindow]
  rw [Substring_offset s.length offset hs2 ho]
  have hb : 0 ≤ (if offset ≥ 0 then offset else max 0 ((s.length : Int) + offset)) := by
    split_ifs <;> omega
  generalize (if offset ≥ 0 then offset else max 0 ((s.length : Int) + offset)) = o at hb ⊢
  by_cases h : o ≥ (s.length : Int)
  · simp only [h, if_true, GetZeroValue, removeNul, List.filter_nil]
  · simp only [h, if_false]
    rw [Substring_slice s o length hs2 hb (by omega) hl]
    rfl

theorem size_bound (n : Nat) (hs : (n : Int) < (2 : Int) ^ 63) :
    (n : Int) < 9223372036854775808 := by
  have h := hs
  norm_num at h
  omega

/-- C14: a negative offset `-k` counts from the end: it gives the result of
the offset `size - k` when `k ≤ size`, and of the offset `0` when `k > size`. -/
theorem Substring_negative_offset (s : List Char) (k n : Nat)
    (hs : (s.length : Int) < (2 : Int) ^ 63) (hk1 : 1 ≤ k) (hk : isInt (-(k : Int)))
    (hn : isUint n) :
    (k ≤ s.length → Substring s (-(k : Int)) n = Substring s ((s.length : Int) - (k : Int)) n) ∧
    (s.length < k → Substring s (-(k : Int)) n = Substring s 0 n) := by
  have hs2 := size_bound _ hs
  have hneg : ¬ (-(k : Int) ≥ 0) := by omega
  constructor
  · intro hle
    have hpos : (s.length : Int) - (k : Int) ≥ 0 := by omega
    rw [Substring_window s _ n hs hk hn,
      Substring_window s _ n hs ((isInt_iff _).2 (by omega)) hn]
    have hmax : max (0 : Int) ((s.length : Int) + -(k : Int)) = (s.length : Int) - (k : Int) := by
      omega
    simp only [runeWindow, hneg, hpos, if_true, if_false, hmax]
  · intro hlt
    rw [Substring_window s _ n hs hk hn,
      Substring_window s 0 n hs ((isInt_iff _).2 (by omega)) hn]
    have hmax : max (0 : Int) ((s.length : Int) + -(k : Int)) = 0 := by omega
    have h0 : (0 : Int) ≥ 0 := le_refl _
    simp only [runeWindow, hneg, h0, if_true, if_false, hmax]

/-- Witness for C14: `Substring("hello", -3, 2) = Substring("hello", 2, 2) = "ll"`. -/
theorem Substring_negative_offset_witness :
    ((3 ≤ "hello".toList.length →
        Substring "hello".toList (-((3 : Nat) : Int)) 2 =
          Substring "hello".toList ((("hello".toList.length : Nat) : Int) - ((3 : Nat) : Int)) 2) ∧
      ("hello".toList.length < 3 →
        Substring "hello".toList (-((3 : Nat) : Int)) 2 = Substring "hello".toList 0 2)) ∧
    Substring "hello".toList (-3) 2 = some "ll".toList ∧
    Substring "hello".toList 2 2 = some "ll".toList ∧
    Substring "hello".toList (-9) 2 = Substring "hello".toList 0 2 :=
  ⟨Substring_negative_offset "hello".toList 3 2 (by decide) (by decide)
    (by norm_num [isInt]) (by norm_num [isUint]), by decide, by decide, by decide⟩

theorem resolvedOffset_eq (n : Nat) (offset : Int) (hs : (n : Int) < 9223372036854775808)
    (ho : isInt offset) :
    resolvedOffset n offset = (if offset ≥ 0 then offset else max 0 ((n : Int) + offset)) :=
  Substring_offset n offset hs ho

theorem resolvedOffset_nonneg (n : Nat) (offset : Int) (hs : (n : Int) < 9223372036854775808)
    (ho : isInt offset) : 0 ≤ resolvedOffset n offset := by
  rw [resolvedOffset_eq n offset hs ho]
  split_ifs <;> omega

theorem clampedLength_eq (n : Nat) (o : Int) (length : Nat)
    (hs : (n : Int) < 9223372036854775808) (h0 : 0 ≤ o) (h1 : o < n) :
    toUint o ≤ toUint (n : Int) ∧ clampedLength n o length = min length (n - o.toNat) := by
  have e1 : toUint (n : Int) = n := by
    rw [toUint_of_nonneg _ (by omega) (by omega)]; omega
  have e2 : toUint o = o.toNat := toUint_of_nonneg _ h0 (by omega)
  have e3 : toUint (((n : Nat) : Int) - ((o.toNat : Nat) : Int)) = n - o.toNat := by
    rw [toUint_of_nonneg _ (by omega) (by omega)]; omega
  have e4 : wrapInt ((n : Int) - o) = (n : Int) - o :=
    wrapInt_of_isInt _ ((isInt_iff _).2 (by omega))
  have e5 : toUint ((n : Int) - o) = n - o.toNat := by
    rw [toUint_of_nonneg _ (by omega) (by omega)]; omega
  refine ⟨by rw [e1, e2]; omega, ?_⟩
  simp only [clampedLength]
  rw [e1, e2, e3, e4, e5]
  clear e1 e2 e3 e4 e5
  split_ifs <;> omega

/-- C15: `Substring` always returns a value.  When the slice expression is
reached (resolved offset `o` below `size`) its bounds are `o` and
`o + length` for the clamped length, computed without overflow, with
`0 ≤ o ≤ o + length ≤ size`, and `uint(size) - uint(o)` does not underflow. -/
theorem Substring_in_bounds (s : List Char) (offset : Int) (length : Nat)
    (hs : (s.length : Int) < (2 : Int) ^ 63) (ho : isInt offset) (hl : isUint length) :
    (Substring s offset length =
      if resolvedOffset s.length offset ≥ (s.length : Int) then some GetZeroValue
      else (slice s (resolvedOffset s.length offset)
        (wrapInt (resolvedOffset s.length offset +
          toInt (clampedLength s.length (resolvedOffset s.length offset) length)))).map
            removeNul) ∧
    (resolvedOffset s.length offset < (s.length : Int) →
      0 ≤ resolvedOffset s.length offset ∧
      resolvedOffset s.length offset ≤ resolvedOffset s.length offset +
        (clampedLength s.length (resolvedOffset s.length offset) length : Int) ∧
      resolvedOffset s.length offset +
        (clampedLength s.length (resolvedOffset s.length offset) length : Int) ≤
          (s.length : Int) ∧
      wrapInt (resolvedOffset s.length offset +
        toInt (clampedLength s.length (resolvedOffset s.length offset) length)) =
          resolvedOffset s.length offset +
            (clampedLength s.length (resolvedOffset s.length offset) length : Int) ∧
      toUint (resolvedOffset s.length offset) ≤ toUint (s.length : Int)) ∧
    (∃ r, Substring s offset length = some r) := by
  have hs2 := size_bound _ hs
  refine ⟨rfl, ?_, ⟨_, Substring_window s offset length hs ho hl⟩⟩
  intro hlt
  have h0 := resolvedOffset_nonneg s.length offset hs2 ho
  generalize resolvedOffset s.length offset = o at hlt h0 ⊢
  obtain ⟨hu, hc⟩ := clampedLength_eq s.length o length hs2 h0 hlt
  generalize clampedLength s.length o length = m at hc ⊢
  have hm : (m : Int) ≤ (s.length : Int) - o := by omega
  clear hc
  have e7 : toInt m = (m : Int) := wrapInt_of_isInt _ ((isInt_iff _).2 (by omega))
  have e8 : wrapInt (o + (m : Int)) = o + (m : Int) :=
    wrapInt_of_isInt _ ((isInt_iff _).2 (by omega))
  rw [e7, e8]
  exact ⟨h0, by omega, by omega, rfl, hu⟩

/-- Witness for C15: offsets and lengths beyond the string, `Substring("hello",
-9, 99) = "hello"` and `Substring("hello", 7, 99) = ""`. -/
theorem Substring_in_bounds_witness :
    (∃ r, Substring "hello".toList (-9) 99 = some r) ∧
    Substring "hello".toList (-9) 99 = some "hello".toList ∧
    Substring "hello".toList 7 99 = some [] :=
  ⟨(Substring_in_bounds "hello".toList (-9) 99 (by decide) (by norm_num [isInt])
    (by norm_num [isUint])).2.2, by decide, by decide⟩

/-- C16 as stated fails when the offset lies beyond the string: the bound
`min(length, size - o)` is negative, the result has no rune. -/
theorem Substring_length_counterexample :
    Substring "hello".toList 10 2 = some [] ∧
    ¬ ((([] : List Char).length : Int) ≤
      min ((2 : Nat) : Int) ((("hello".toList.length : Nat) : Int) - 10)) := by
  decide

/-- C16, amended: the rune count of `Substring(s, offset, length)` is at most
`min(length, max(0, size - o))`, with `o` the resolved offset (`offset` when it
is not negative, else `max(0, size + offset)`). -/
theorem Substring_length_le (s : List Char) (offset : Int) (length : Nat)
    (hs : (s.length : Int) < (2 : Int) ^ 63) (ho : isInt offset) (hl : isUint length) :
    ∃ r, Substring s offset length = some r ∧
      (r.length : Int) ≤ min (length : Int)
        (max 0 ((s.length : Int) -
          (if offset ≥ 0 then offset else max 0 ((s.length : Int) + offset)))) := by
  refine ⟨_, Substring_window s offset length hs ho hl, ?_⟩
  have h1 : (removeNul (runeWindow s offset length)).length ≤
      (runeWindow s offset length).length := List.length_filter_le _ _
  have h2 : ((runeWindow s offset length).length : Int) ≤ min (length : Int)
      (max 0 ((s.length : Int) -
        (if offset ≥ 0 then offset else max 0 ((s.length : Int) + offset)))) := by
    simp only [runeWindow]
    generalize (if offset ≥ 0 then offset else max 0 ((s.length : Int) + offset)) = o
    by_cases h : o ≥ (s.length : Int)
    · simp only [h, if_true, List.length_nil]
      omega
    · simp only [h, if_false, List.length_take, List.length_drop]
      omega
  omega

/-- Witness for C16: `Substring("hello", -3, 2)` has the two runes `ll`,
`min(2, 5 - 2) = 2`. -/
theorem Substring_length_le_witness :
    (∃ r, Substring "hello".toList (-3) 2 = some r ∧
      (r.length : Int) ≤ min ((2 : Nat) : Int)
        (max 0 ((("hello".toList.length : Nat) : Int) -
          (if (-3 : Int) ≥ 0 then (-3 : Int)
            else max 0 ((("hello".toList.length : Nat) : Int) + -3))))) ∧
    Substring "hello".toList (-3) 2 = some "ll".toList :=
  ⟨Substring_length_le "hello".toList (-3) 2 (by decide) (by norm_num [isInt])
    (by norm_num [isUint]), by decide⟩

/-! ## `Ellipsis` with a negative length -/

/-- C17: for a negative `n`, `Ellipsis(s, n)` is `"..."` whatever the string,
the empty string and strings shorter than 3 bytes included. -/
theorem Ellipsis_negative (s : List Nat) (n : Int) (hn : n < 0) :
    Ellipsis s n = some (asciiBytes "...") := by
  have h1 : ((TrimSpace s).length : Int) > n := by omega
  have h2 : n < 3 := by omega
  simp only [Ellipsis, h1, h2, if_true, or_true]

/-- Witness for C17: `Ellipsis("", -1) = "..."` and `Ellipsis("hi", -5) = "..."`. -/
theorem Ellipsis_negative_witness :
    Ellipsis [] (-1) = some (asciiBytes "...") ∧
    Ellipsis (asciiBytes "hi") (-5) = some (asciiBytes "...") :=
  ⟨Ellipsis_negative [] (-1) (by decide), by decide⟩

/-! ## `IsAlpha` -/

/-- A string of letters `a-z`, `A-Z` satisfies `IsAlpha`. -/
theorem IsAlpha_of_ascii_letters (T : UnicodeTables) (s : List Char)
    (h : ∀ c ∈ s, isAlphaAZ c = true) : IsAlpha T s = true := by
  simp only [IsAlpha, List.all_eq_true]
  intro c hc
  have h1 := h c hc
  simp only [isAlphaAZ, Bool.or_eq_true] at h1
  have h2 : (IsLetter T c || IsDigit T c) = true := by
    rcases h1 with h1 | h1
    · exact lower_alnum T h1
    · exact upper_alnum T h1
  have h3 : IsDigit T c = false := by
    have h4 : isDigit09 c = false := by
      rcases h1 with h1 | h1
      · exact lower_not_digit h1
      · exact upper_not_digit h1
    simp only [isDigit09] at h4
    have h5 : c.toNat ≤ MaxLatin1 := by
      simp only [MaxLatin1]
      rcases h1 with h1 | h1
      · simp only [isLowerAZ, Bool.and_eq_true, decide_eq_true_eq] at h1; omega
      · simp only [isUpperAZ, Bool.and_eq_true, decide_eq_true_eq] at h1; omega
    simp only [IsDigit, h5, if_true, h4]
  simpa [h3] using h2

/-- C18: `IsAlpha` tests `unicode.IsLetter`, not the range `a-zA-Z` its comment
names: on the one-rune string U+00E9 (`é`), a letter outside `a-zA-Z`, it
returns true, while `IsAlphaNumeric` returns false. -/
theorem IsAlpha_non_ascii (T : UnicodeTables) :
    IsAlpha T [Char.ofNat 0xE9] = true ∧ isAlphaAZ (Char.ofNat 0xE9) = false ∧
    IsAlphaNumeric [Char.ofNat 0xE9] = false :=
  ⟨rfl, rfl, rfl⟩

/-! ## `strings.TrimSpace` is idempotent -/

theorem lastRuneStartLoop_le (s : List Nat) (lim : Int) : ∀ (fuel : Nat) (start : Int),
    lastRuneStartLoop s lim fuel start ≤ start := by
  intro fuel
  induction fuel with
  | zero => intro start; exact le_refl _
  | succ k ih =>
    intro start
    simp only [lastRuneStartLoop]
    split_ifs
    · exact le_refl _
    · have := ih (start - 1); omega
    · exact le_refl _

theorem DecodeLastRuneInString_size_pos (s : List Nat) (h : s ≠ []) :
    1 ≤ (DecodeLastRuneInString s).2 := by
  have hn : s.length ≠ 0 := fun h0 => h (List.length_eq_zero.1 h0)
  simp only [DecodeLastRuneInString, hn, if_false]
  generalize (if (s.length : Int) - UTFMax < 0 then 0 else (s.length : Int) - UTFMax) = lim
  have hle := lastRuneStartLoop_le s lim UTFMax ((s.length : Int) - 2)
  generalize lastRuneStartLoop s lim UTFMax ((s.length : Int) - 2) = st at hle ⊢
  have hst : (if st < 0 then 0 else st) < (s.length : Int) := by split_ifs <;> omega
  generalize (if st < 0 then 0 else st) = st2 at hst ⊢
  by_cases h1 : s.getD (s.length - 1) 0 < 0x80
  · simp only [h1, if_true]
    exact le_refl _
  · simp only [h1, if_false]
    split_ifs with h2
    · exact le_refl _
    · simp only
      omega

/-- The last rune left by `TrimRightFunc`, when there is one, does not satisfy
the predicate. -/
theorem trimRightLoop_last (f : Nat → Bool) : ∀ (fuel : Nat) (s : List Nat), s.length ≤ fuel →
    trimRightLoop f fuel s = [] ∨
      f (DecodeLastRuneInString (trimRightLoop f fuel s)).1 = false := by
  intro fuel
  induction fuel with
  | zero =>
    intro s hs
    left
    have : s = [] := List.length_eq_zero.1 (by omega)
    subst this
    rfl
  | succ n ih =>
    intro s hs
    rcases s with _ | ⟨a, t⟩
    · left; rfl
    · simp only [trimRightLoop]
      by_cases hf : f (DecodeLastRuneInString (a :: t)).1 = true
      · simp only [hf, if_true]
        apply ih
        have := DecodeLastRuneInString_size_pos (a :: t) (by simp)
        simp only [List.length_take, List.length_cons] at hs ⊢
        omega
      · simp only [hf, if_false]
        right
        simpa using hf

/-- A string whose last rune does not satisfy the predicate is left as it is
by `TrimRightFunc`. -/
theorem TrimRightFunc_of_last (f : Nat → Bool) (p : List Nat)
    (h : p = [] ∨ f (DecodeLastRuneInString p).1 = false) : TrimRightFunc p f = p := by
  rcases p with _ | ⟨a, t⟩
  · rfl
  · rcases h with h | h
    · simp at h
    · simp only [TrimRightFunc, List.length_cons, trimRightLoop, h, Bool.false_eq_true, if_false]

theorem TrimSpace_last (s : List Nat) :
    TrimSpace s = [] ∨ runeIsSpace (DecodeLastRuneInString (TrimSpace s)).1 = false :=
  trimRightLoop_last runeIsSpace _ _ (Nat.le_refl _)

/-- The first rune of a prefix of a trimmed string is not white space. -/
theorem take_TrimSpace_head (s : List Nat) (j : Nat) :
    (TrimSpace s).take j = [] ∨
      runeIsSpace (DecodeRuneInString ((TrimSpace s).take j)).1 = false := by
  obtain ⟨k, hk⟩ := TrimSpace_eq_take s
  rw [hk, List.take_take]
  by_cases h0 : min j k = 0
  · left; rw [h0]; rfl
  · rcases TrimLeftFunc_head runeIsSpace s with h | h
    · left; rw [h]; simp
    · right
      rcases DecodeRuneInString_take (TrimLeftFunc s runeIsSpace) (min j k) (by omega) with h1 | h1
      · rw [h1]; exact h
      · rw [h1]; exact runeIsSpace_RuneError

/-- Trimming a trimmed string changes nothing. -/
theorem TrimSpace_idem (s : List Nat) : TrimSpace (TrimSpace s) = TrimSpace s := by
  have h1 := TrimLeftFunc_take_TrimSpace s (TrimSpace s).length
  rw [List.take_length] at h1
  have h2 := TrimRightFunc_of_last runeIsSpace (TrimSpace s) (TrimSpace_last s)
  conv_lhs => rw [TrimSpace, TrimFunc, h1]
  exact h2

/-! ## `Ellipsis` is idempotent -/

theorem acceptLo_ge (s0 : Nat) : 0x80 ≤ acceptLo s0 := by
  simp only [acceptLo]
  split_ifs <;> omega

theorem leadSize_le (s0 : Nat) : 2 ≤ leadSize s0 ∧ leadSize s0 ≤ 4 := by
  simp only [leadSize]
  split_ifs <;> omega

/-- Appending bytes that start with an ASCII byte leaves the first rune as it
is, or turns a cut encoding into `RuneError`. -/
theorem DecodeRuneInString_append_ascii (X : List Nat) (y : Nat) (Y : List Nat) (hX : X ≠ [])
    (hy : y < 0x80) :
    (DecodeRuneInString (X ++ y :: Y)).1 = (DecodeRuneInString X).1 ∨
      (DecodeRuneInString (X ++ y :: Y)).1 = RuneError := by
  obtain ⟨s0, t, rfl⟩ := List.exists_cons_of_ne_nil hX
  rw [List.cons_append]
  by_cases h80 : s0 < 0x80
  · left; simp only [DecodeRuneInString, h80, if_true]
  · by_cases hinv : s0 < 0xC2 ∨ 0xF4 < s0
    · left; simp only [DecodeRuneInString, h80, hinv, if_true, if_false]
    · have hacc := acceptLo_ge s0
      have hsz := leadSize_le s0
      by_cases hl1 : (s0 :: t).length < leadSize s0
      · right
        simp only [List.length_cons] at hl1
        rcases t with _ | ⟨t0, _ | ⟨t1, _ | ⟨t2, t3⟩⟩⟩
        · simp only [DecodeRuneInString, h80, hinv, if_false, List.nil_append,
            List.getD_cons_zero]
          split_ifs <;> first | rfl | (exfalso; omega)
        · simp only [List.length_cons, List.length_nil] at hl1
          simp only [DecodeRuneInString, h80, hinv, if_false, List.cons_append,
            List.nil_append, List.getD_cons_zero, List.getD_cons_succ]
          split_ifs <;> first | rfl | (exfalso; omega)
        · simp only [List.length_cons, List.length_nil] at hl1
          simp only [DecodeRuneInString, h80, hinv, if_false, List.cons_append,
            List.nil_append, List.getD_cons_zero, List.getD_cons_succ]
          split_ifs <;> first | rfl | (exfalso; omega)
        · simp only [List.length_cons] at hl1
          omega
      · left
        have hk : leadSize s0 ≤ t.length + 1 := by
          simp only [List.length_cons] at hl1; omega
        have hl2 : ¬ (s0 :: (t ++ y :: Y)).length < leadSize s0 := by
          simp only [List.length_cons, List.length_append]; omega
        simp only [DecodeRuneInString, h80, hinv, hl1, hl2, if_false]
        by_cases h2 : s0 < 0xE0
        · have hsz2 : leadSize s0 = 2 := by simp only [leadSize, h2, if_true]
          rw [hsz2] at hk ⊢
          simp only [Nat.le_refl, if_true, List.getD_append t (y :: Y) 0 0 (by omega)]
        · by_cases h3 : s0 < 0xF0
          · have hsz2 : leadSize s0 = 3 := by simp only [leadSize, h2, h3, if_true, if_false]
            rw [hsz2] at hk ⊢
            simp only [Nat.le_refl, if_true, List.getD_append t (y :: Y) 0 0 (by omega),
              List.getD_append t (y :: Y) 0 1 (by omega)]
          · have hsz2 : leadSize s0 = 4 := by simp only [leadSize, h2, h3, if_false]
            rw [hsz2] at hk ⊢
            simp only [List.getD_append t (y :: Y) 0 0 (by omega),
              List.getD_append t (y :: Y) 0 1 (by omega),
              List.getD_append t (y :: Y) 0 2 (by omega)]

theorem asciiBytes_dots : asciiBytes "..." = [0x2E, 0x2E, 0x2E] := rfl

/-- The first rune of a string followed by `"..."` is not white space when the
first rune of the string is not. -/
theorem head_append_dots (X : List Nat)
    (hX : X = [] ∨ runeIsSpace (DecodeRuneInString X).1 = false) :
    runeIsSpace (DecodeRuneInString (X ++ asciiBytes "...")).1 = false := by
  rw [asciiBytes_dots]
  by_cases hnil : X = []
  · subst hnil
    decide
  · have hX2 : runeIsSpace (DecodeRuneInString X).1 = false := hX.resolve_left hnil
    rcases DecodeRuneInString_append_ascii X 0x2E [0x2E, 0x2E] hnil (by decide) with h | h
    · rw [h]; exact hX2
    · rw [h]; exact runeIsSpace_RuneError

/-- A string that ends in `"..."` ends in the rune `.`. -/
theorem last_append_dots (X : List Nat) :
    DecodeLastRuneInString (X ++ asciiBytes "...") = (0x2E, 1) := by
  rw [asciiBytes_dots]
  have hn : (X ++ [0x2E, 0x2E, 0x2E]).length ≠ 0 := by simp
  have hlen : (X ++ [0x2E, 0x2E, 0x2E]).length = X.length + 3 := by
    simp only [List.length_append, List.length_cons, List.length_nil]
  have hg : (X ++ [0x2E, 0x2E, 0x2E]).getD ((X ++ [0x2E, 0x2E, 0x2E]).length - 1) 0 = 0x2E := by
    rw [List.getD_append_right _ _ _ _ (by omega)]
    have : (X ++ [0x2E, 0x2E, 0x2E]).length - 1 - X.length = 2 := by omega
    rw [this]
    rfl
  simp only [DecodeLastRuneInString, hn, if_false, hg]
  rfl

/-- A trimmed-on-the-right prefix of a trimmed string, followed by `"..."`, is
left as it is by `TrimSpace`. -/
theorem TrimSpace_cut_dots (s : List Nat) (j : Nat) :
    TrimSpace (TrimRightFunc ((TrimSpace s).take j) runeIsSpace ++ asciiBytes "...") =
      TrimRightFunc ((TrimSpace s).take j) runeIsSpace ++ asciiBytes "..." := by
  obtain ⟨k, hk⟩ := trimRightLoop_eq_take runeIsSpace ((TrimSpace s).take j).length
    ((TrimSpace s).take j)
  have hX : TrimRightFunc ((TrimSpace s).take j) runeIsSpace = (TrimSpace s).take (min k j) := by
    rw [TrimRightFunc, hk, List.take_take]
  have h1 := head_append_dots _ (hX ▸ take_TrimSpace_head s (min k j))
  have h2 : TrimLeftFunc (TrimRightFunc ((TrimSpace s).take j) runeIsSpace ++ asciiBytes "...")
      runeIsSpace = TrimRightFunc ((TrimSpace s).take j) runeIsSpace ++ asciiBytes "..." :=
    TrimLeftFunc_of_head _ _ (Or.inr h1)
  have h3 : TrimRightFunc (TrimRightFunc ((TrimSpace s).take j) runeIsSpace ++ asciiBytes "...")
      runeIsSpace = TrimRightFunc ((TrimSpace s).take j) runeIsSpace ++ asciiBytes "..." :=
    TrimRightFunc_of_last _ _ (Or.inr (by rw [last_append_dots]; decide))
  conv_lhs => rw [TrimSpace, TrimFunc, h2]
  exact h3

theorem TrimRightFunc_length_le (f : Nat → Bool) (p : List Nat) :
    (TrimRightFunc p f).length ≤ p.length := by
  obtain ⟨k, hk⟩ := trimRightLoop_eq_take f p.length p
  rw [TrimRightFunc, hk, List.length_take]
  omega

/-- C19: `Ellipsis` is idempotent in its first argument: `Ellipsis(s, n)`
returns a string `r`, and `Ellipsis(r, n)` returns `r` again. -/
theorem Ellipsis_idempotent (s : List Nat) (n : Int) :
    ∃ r, Ellipsis s n = some r ∧ Ellipsis r n = some r := by
  by_cases hgt : ((TrimSpace s).length : Int) > n
  · by_cases h3 : n < 3
    · refine ⟨asciiBytes "...", ?_, ?_⟩
      · simp only [Ellipsis, hgt, if_true, h3, or_true]
      · have ht : TrimSpace (asciiBytes "...") = asciiBytes "..." := by decide
        have hl : ((asciiBytes "...").length : Int) > n := by
          have : (asciiBytes "...").length = 3 := rfl
          omega
        simp only [Ellipsis, ht, hl, if_true, h3, or_true]
    · have hlen3 : ¬ ((TrimSpace s).length : Int) < 3 := by omega
      refine ⟨TrimRightFunc ((TrimSpace s).take (n - 3).toNat) runeIsSpace ++ asciiBytes "...",
        ?_, ?_⟩
      · simp only [Ellipsis, hgt, if_true, h3, hlen3, or_self, if_false]
        rw [slice_zero _ _ (by omega) (by omega)]
        simp only [Option.map_some', TrimSpace_take]
      · have hl : ¬ ((TrimRightFunc ((TrimSpace s).take (n - 3).toNat) runeIsSpace ++
            asciiBytes "...").length : Int) > n := by
          have h1 := TrimRightFunc_length_le runeIsSpace ((TrimSpace s).take (n - 3).toNat)
          have h2 : (asciiBytes "...").length = 3 := rfl
          simp only [List.length_append, List.length_take, h2] at h1 ⊢
          omega
        simp only [Ellipsis, TrimSpace_cut_dots, hl, if_false]
  · refine ⟨TrimSpace s, ?_, ?_⟩
    · simp only [Ellipsis, hgt, if_false]
    · simp only [Ellipsis, TrimSpace_idem, hgt, if_false]

/-! ## No digit is left next to a following letter -/

theorem digitLetterAdjacent_cons (a : Char) (l : List Char)
    (h1 : digitLetterAdjacent l = false)
    (h2 : ∀ b ∈ l.head?, (isDigit09 a && isAlphaAZ b) = false) :
    digitLetterAdjacent (a :: l) = false := by
  rcases l with _ | ⟨b, r⟩
  · rfl
  · simp only [digitLetterAdjacent, h1, h2 b (by simp), Bool.or_self]

theorem digitLetterAdjacent_tail (a : Char) (l : List Char)
    (h : digitLetterAdjacent l = true) : digitLetterAdjacent (a :: l) = true := by
  rcases l with _ | ⟨b, r⟩
  · simp [digitLetterAdjacent] at h
  · simp only [digitLetterAdjacent, Bool.or_eq_true] at h ⊢
    exact Or.inr (by simpa [digitLetterAdjacent] using h)

theorem digitLetterAdjacent_append_left (x t : List Char)
    (h : digitLetterAdjacent t = true) : digitLetterAdjacent (x ++ t) = true := by
  induction x with
  | nil => exact h
  | cons a x ih => exact digitLetterAdjacent_tail a _ ih

theorem digitLetterAdjacent_append_right (y : List Char) : ∀ t : List Char,
    digitLetterAdjacent t = true → digitLetterAdjacent (t ++ y) = true := by
  intro t
  induction t with
  | nil => intro h; simp [digitLetterAdjacent] at h
  | cons a t ih =>
    intro h
    rcases t with _ | ⟨b, r⟩
    · simp [digitLetterAdjacent] at h
    · simp only [digitLetterAdjacent, Bool.or_eq_true] at h
      rcases h with h | h
      · simp only [List.cons_append, digitLetterAdjacent, h, Bool.true_or]
      · exact digitLetterAdjacent_tail a _ (ih h)

/-- Every field of `strings.Fields` is a contiguous part of the string. -/
theorem fieldsLoop_part (s : List Char) : ∀ cur : List Char,
    ∀ t ∈ fieldsLoop cur s, ∃ x y, cur ++ s = x ++ t ++ y := by
  induction s with
  | nil =>
    intro cur t ht
    by_cases h : cur = []
    · simp [fieldsLoop, h] at ht
    · simp only [fieldsLoop, h, if_false, List.mem_singleton] at ht
      subst ht
      exact ⟨[], [], by simp⟩
  | cons c cs ih =>
    intro cur t ht
    simp only [fieldsLoop] at ht
    by_cases hc : IsSpace c = true
    · simp only [hc, if_true] at ht
      by_cases h : cur = []
      · simp only [h, if_true] at ht
        obtain ⟨x, y, hxy⟩ := ih [] t ht
        exact ⟨cur ++ c :: x, y, by
          rw [List.nil_append] at hxy
          rw [hxy]
          simp⟩
      · simp only [h, if_false, List.mem_cons] at ht
        rcases ht with rfl | ht
        · exact ⟨[], c :: cs, by simp⟩
        · obtain ⟨x, y, hxy⟩ := ih [] t ht
          exact ⟨cur ++ c :: x, y, by
            rw [List.nil_append] at hxy
            rw [hxy]
            simp⟩
    · simp only [hc] at ht
      obtain ⟨x, y, hxy⟩ := ih (cur ++ [c]) t (by simpa using ht)
      exact ⟨x, y, by rw [← hxy]; simp⟩

/-! ### The second pass splits every digit from a following letter -/

theorem splitNumberLetter_head (c : Char) (cs : List Char) :
    ∃ r, ReplaceAllString splitNumberLetterReg splitNumberLetterTemplate (c :: cs) = c :: r := by
  by_cases hd : isDigit09 c = true
  · rcases cs with _ | ⟨b, t⟩
    · exact ⟨[], ReplaceAllString_single _ _ _ (by simp [splitNumberLetterReg])⟩
    · by_cases hb : isAlphaAZ b = true
      · exact ⟨_, splitNumberLetter_digit_letter t hd hb⟩
      · exact ⟨_, splitNumberLetter_digit_other t (by simpa using hb)⟩
  · exact ⟨_, splitNumberLetter_skip cs (by simpa using hd)⟩

theorem splitNumberLetter_no_adjacent : ∀ (n : Nat) (s : List Char), s.length ≤ n →
    digitLetterAdjacent
      (ReplaceAllString splitNumberLetterReg splitNumberLetterTemplate s) = false := by
  intro n
  induction n using Nat.strong_induction_on with
  | _ n ih =>
    intro s hs
    rcases s with _ | ⟨c, _ | ⟨b, t⟩⟩
    · rw [ReplaceAllString_nil]; rfl
    · have hlen : ReplaceAllString splitNumberLetterReg splitNumberLetterTemplate [c] = [c] := by
        by_cases hd : isDigit09 c = true
        · exact ReplaceAllString_single _ _ _ (by simp [splitNumberLetterReg])
        · rw [splitNumberLetter_skip [] (by simpa using hd), ReplaceAllString_nil]
      rw [hlen]; rfl
    · simp only [List.length_cons] at hs
      by_cases hm : isDigit09 c = true ∧ isAlphaAZ b = true
      · rw [splitNumberLetter_digit_letter t hm.1 hm.2]
        have ih2 := ih t.length (by omega) t (Nat.le_refl _)
        have hbd : isDigit09 b = false := by
          have := hm.2
          simp only [isAlphaAZ, Bool.or_eq_true] at this
          rcases this with h | h
          · exact lower_not_digit h
          · exact upper_not_digit h
        apply digitLetterAdjacent_cons
        · apply digitLetterAdjacent_cons
          · apply digitLetterAdjacent_cons _ _ ih2
            intro x _
            simp [hbd]
          · intro x hx
            have hsp : isDigit09 ' ' = false := by decide
            simp [hsp]
        · intro x hx
          simp only [List.head?_cons, Option.mem_def, Option.some.injEq] at hx
          subst hx
          simp [isAlphaAZ, isLowerAZ, isUpperAZ]
      · have hstep : ReplaceAllString splitNumberLetterReg splitNumberLetterTemplate
            (c :: b :: t) = c :: ReplaceAllString splitNumberLetterReg
              splitNumberLetterTemplate (b :: t) := by
          by_cases hd : isDigit09 c = true
          · have hb : isAlphaAZ b = false := by
              by_cases hb : isAlphaAZ b = true
              · exact absurd ⟨hd, hb⟩ hm
              · simpa using hb
            exact splitNumberLetter_digit_other t hb
          · exact splitNumberLetter_skip _ (by simpa using hd)
        rw [hstep]
        have ih2 := ih (t.length + 1) (by omega) (b :: t) (by simp)
        obtain ⟨r, hr⟩ := splitNumberLetter_head b t
        rw [hr] at ih2 ⊢
        apply digitLetterAdjacent_cons _ _ ih2
        intro x hx
        simp only [List.head?_cons, Option.mem_def, Option.some.injEq] at hx
        subst hx
        by_cases hd : isDigit09 c = true
        · by_cases hb : isAlphaAZ b = true
          · exact absurd ⟨hd, hb⟩ hm
          · simp [hb]
        · simp [hd]

/-- The rune-wise pass of `Words` creates no digit next to a following letter. -/
theorem map_no_adjacent (T : UnicodeTables) (l : List Char)
    (h : digitLetterAdjacent l = false) :
    digitLetterAdjacent
      (l.map (fun r => if (IsLetter T r || IsDigit T r) = true then r else ' ')) = false := by
  induction l with
  | nil => rfl
  | cons a l ih =>
    rcases l with _ | ⟨b, r⟩
    · rfl
    · simp only [digitLetterAdjacent, Bool.or_eq_false_iff] at h
      have ih2 := ih h.2
      rw [List.map_cons]
      apply digitLetterAdjacent_cons _ _ ih2
      intro x hx
      simp only [List.map_cons, List.head?_cons, Option.mem_def, Option.some.injEq] at hx
      subst hx
      have h1 := h.1
      by_cases ha : (IsLetter T a || IsDigit T a) = true
      · by_cases hb : (IsLetter T b || IsDigit T b) = true
        · simp only [ha, hb, if_true]
          exact h1
        · simp only [hb, if_false]
          simp [isAlphaAZ, isLowerAZ, isUpperAZ]
      · simp only [ha, if_false]
        simp [isDigit09]

/-- C20: no token of `Words s` holds an ASCII digit immediately followed by an
ASCII letter. -/
theorem Words_no_digit_letter (T : UnicodeTables) (s : List Char) :
    ∀ t ∈ Words T s, digitLetterAdjacent t = false := by
  intro t ht
  simp only [Words, Fields] at ht
  obtain ⟨x, y, hxy⟩ := fieldsLoop_part _ [] t ht
  rw [List.nil_append] at hxy
  have h1 := splitNumberLetter_no_adjacent _
    (ReplaceAllString splitWordReg splitWordTemplate s) (Nat.le_refl _)
  have h2 := map_no_adjacent T _ h1
  rw [hxy] at h2
  by_contra hne
  have h3 : digitLetterAdjacent t = true := by simpa using hne
  have h4 := digitLetterAdjacent_append_right y _ (digitLetterAdjacent_append_left x t h3)
  rw [h2] at h4
  exact Bool.false_ne_true h4

/-- Witness for C20: the tokens of `Words("1a2")` are `1` and `a2`; in `a2`
the digit follows the letter. -/
theorem Words_no_digit_letter_witness :
    Words sampleTables "1a2".toList = ["1".toList, "a2".toList] ∧
    digitLetterAdjacent "a2".toList = false :=
  ⟨by decide, Words_no_digit_letter sampleTables "1a2".toList "a2".toList (by decide)⟩

end Golodash
